import Mathlib

/-! Course advising program (`ProjectTwo.cpp`)

A shallow embedding of the load / validate / query pipeline of `ProjectTwo.cpp`
and the verification of its specification.

Modelling conventions

* A `std::string` is the list of its characters (`Str`).  The program never calls
  `setlocale`, so `std::isspace` and `std::toupper` are those of the "C" locale: they
  act on the ASCII range only, and every other character is left alone.  A character
  outside ASCII stands for the bytes of its UTF-8 encoding, none of which is whitespace,
  a comma or a lower-case letter, and the order of two strings by bytes is their order
  by characters.
* `std::unordered_map<std::string, Course>` is an association list with at most one
  entry per key (`Catalog`).  The iteration order of the C++ container is unspecified;
  the model iterates in order of first insertion.
* The file stream is the list of its lines (what successive `std::getline(fin, line)`
  calls deliver), or `none` when the file cannot be opened.
* `std::cout` and `std::cerr` are lists of messages (`Out`, `Err`); `Out.render` and
  `Err.render` give the exact text of each message.
-/

namespace ProjectTwo

/-! ## Data model -/

/-- A `std::string`. -/
abbrev Str := List Char

/-- The record `struct Course`. -/
structure Course where
  number : Str
  title : Str
  prereqs : List Str
deriving DecidableEq, Repr, Inhabited

/-- The container `std::unordered_map<std::string, Course>`. -/
abbrev Catalog := List (Str × Course)

/-- Lookup `courses_.find(k)`: `none` stands for `courses_.end()`. -/
def Catalog.find : Catalog → Str → Option Course
  | [], _ => none
  | (k', c) :: rest, k => if k' = k then some c else Catalog.find rest k

/-- Assignment `courses_[k] = c`: overwrite the entry of `k`, or create it. -/
def Catalog.assign : Catalog → Str → Course → Catalog
  | [], k, c => [(k, c)]
  | (k', c') :: rest, k, c =>
    if k' = k then (k, c) :: rest else (k', c') :: Catalog.assign rest k c

/-- The container after the assignments `courses_[c.number] = c` for the records `cs`,
in order. -/
def Catalog.assignAll (m : Catalog) (cs : List Course) : Catalog :=
  cs.foldl (fun m c => m.assign c.number c) m

/-- The keys of the container, in iteration order. -/
def Catalog.keys (m : Catalog) : List Str := m.map Prod.fst

/-- The private data of `class AdvisingProgram`. -/
structure AdvisingProgram where
  courses_ : Catalog
  loaded_ : Bool
deriving DecidableEq, Repr

/-- A freshly constructed `AdvisingProgram`: empty map, `loaded_ = false`. -/
def AdvisingProgram.init : AdvisingProgram := { courses_ := [], loaded_ := false }

/-! ## Utility helpers -/

/-- The function `std::isspace` in the "C" locale: space, `\t`, `\n`, `\v`, `\f`, `\r`. -/
def isspace (c : Char) : Bool :=
  c.toNat == 32 || c.toNat == 9 || c.toNat == 10 || c.toNat == 11 || c.toNat == 12
    || c.toNat == 13

/-- The function `std::toupper` in the "C" locale: `a`..`z` go to `A`..`Z`. -/
def toupper (c : Char) : Char :=
  if 97 ≤ c.toNat ∧ c.toNat ≤ 122 then Char.ofNat (c.toNat - 32) else c

/-- First loop of `trim`, `while (b < e && isspace(s[b])) ++b;`, started at index `b`
on the characters `s[b..]` (`e` is `s.size()`, so `b < e` says a character remains). -/
def trimBegin : Str → Nat → Nat
  | [], b => b
  | c :: rest, b => if isspace c then trimBegin rest (b + 1) else b

/-- Second loop of `trim`, `while (e > b && isspace(s[e - 1])) --e;`, started at `e`. -/
def trimEnd (s : Str) (b : Nat) : Nat → Nat
  | 0 => 0
  | e + 1 => if b < e + 1 ∧ isspace (s.getD e ' ') = true then trimEnd s b e else e + 1

/-- The helper `trim`: `s.substr(b, e - b)` for the `b` and `e` the two loops reach. -/
def trim (s : Str) : Str :=
  let b := trimBegin s 0
  let e := trimEnd s b s.length
  (s.drop b).take (e - b)

/-- The helper `toUpper`: `std::toupper` on every character. -/
def toUpper (s : Str) : Str := s.map toupper

/-- Characters of the stream up to the next `delim` or the end of the stream, and the
stream after them (the delimiter is consumed and not stored). -/
def readUntil (delim : Char) : Str → Str × Str
  | [] => ([], [])
  | c :: cs =>
    if c = delim then ([], cs)
    else ((c :: (readUntil delim cs).1), (readUntil delim cs).2)

/-- The call `std::getline(ss, token, delim)` on a stream with `ss` left to read: `none`
when it fails (nothing left to extract), else the token and the rest of the stream. -/
def getline (ss : Str) (delim : Char) : Option (Str × Str) :=
  match ss with
  | [] => none
  | _ :: _ => some (readUntil delim ss)

/-- The loop `while (std::getline(ss, token, ',')) out.push_back(token);` of `splitCSV`.
Every round consumes a character of the stream, so `fuel` rounds suffice for a stream
of at most `fuel` characters. -/
def splitLoop : Nat → Str → List Str → List Str
  | 0, _, out => out
  | fuel + 1, ss, out =>
    match getline ss ',' with
    | none => out
    | some (token, rest) => splitLoop fuel rest (out ++ [token])

/-- The helper `splitCSV`. -/
def splitCSV (line : Str) : List Str := splitLoop line.length line []

/-! ## Messages -/

/-- Lines written to `std::cerr`. -/
inductive Err where
  /-- Text `Error: could not open file "<filename>".` -/
  | couldNotOpen (filename : Str)
  /-- Text `Format warning (line <lineNo>): fewer than 2 fields.` -/
  | fewerThanTwoFields (lineNo : Nat)
  /-- Text `Format warning (line <lineNo>): empty course number or title.` -/
  | emptyNumberOrTitle (lineNo : Nat)
  /-- Text `Warning: no valid course records were loaded.` -/
  | noValidRecords
  /-- Text `Validation warning: prerequisite "<p>" not found for course <number>.` -/
  | prereqNotFound (p number : Str)
deriving DecidableEq, Repr

/-- Lines written to `std::cout` by the three operations. -/
inductive Out where
  /-- Text `Loaded <n> courses.`, with ` with <missing> missing prerequisite
  reference(s)` before the full stop when `missing > 0`. -/
  | loaded (n missing : Nat)
  /-- Text `Please load data first (Option 1).` -/
  | loadFirst
  /-- Text `Here is a sample schedule:` -/
  | scheduleHeader
  /-- Text `<number>, <title>` -/
  | courseLine (number title : Str)
  /-- Text `Please enter a course number.` -/
  | enterCourseNumber
  /-- Text `Course <code> not found.` -/
  | notFound (code : Str)
  /-- Text `Prerequisites: None` -/
  | prereqsNone
  /-- Text `Prerequisites: ` and the items, separated by `, ` -/
  | prereqs (items : List Str)
  /-- Text `Prerequisite titles: ` and the items, separated by `, ` -/
  | prereqTitles (items : List Str)
deriving DecidableEq, Repr

/-- Decimal text of a number, as `operator<<` prints a `size_t`. -/
def decimal (n : Nat) : Str := (Nat.repr n).toList

/-- The text of a `std::cerr` line. -/
def Err.render : Err → Str
  | .couldNotOpen filename =>
    "Error: could not open file ".toList ++ [Char.ofNat 34] ++ filename
      ++ [Char.ofNat 34] ++ ".\n".toList
  | .fewerThanTwoFields lineNo =>
    "Format warning (line ".toList ++ decimal lineNo ++ "): fewer than 2 fields.\n".toList
  | .emptyNumberOrTitle lineNo =>
    "Format warning (line ".toList ++ decimal lineNo
      ++ "): empty course number or title.\n".toList
  | .noValidRecords => "Warning: no valid course records were loaded.\n".toList
  | .prereqNotFound p number =>
    "Validation warning: prerequisite ".toList ++ [Char.ofNat 34] ++ p ++ [Char.ofNat 34]
      ++ " not found for course ".toList ++ number ++ ".\n".toList

/-- The text of a `std::cout` line. -/
def Out.render : Out → Str
  | .loaded n missing =>
    "Loaded ".toList ++ decimal n ++ " courses".toList
      ++ (if missing > 0 then
            " with ".toList ++ decimal missing ++ " missing prerequisite reference(s)".toList
          else [])
      ++ ".\n".toList
  | .loadFirst => "Please load data first (Option 1).\n".toList
  | .scheduleHeader => "Here is a sample schedule:\n".toList
  | .courseLine number title => number ++ ", ".toList ++ title ++ "\n".toList
  | .enterCourseNumber => "Please enter a course number.\n".toList
  | .notFound code => "Course ".toList ++ code ++ " not found.\n".toList
  | .prereqsNone => "Prerequisites: None\n".toList
  | .prereqs items => "Prerequisites: ".toList ++ ", ".toList.intercalate items ++ "\n".toList
  | .prereqTitles items =>
    "Prerequisite titles: ".toList ++ ", ".toList.intercalate items ++ "\n".toList

/-! ## Loading -/

/-- What the body of the read loop of `loadFromFile` makes of one line. -/
inductive LineResult where
  /-- The trimmed line is empty: `continue` without a message. -/
  | blank
  /-- Fewer than 2 tokens: warning and `continue`. -/
  | fewerThanTwoFields
  /-- Empty course number or title: warning and `continue`. -/
  | emptyNumberOrTitle
  /-- The record `c` that is stored. -/
  | course (c : Course)
deriving DecidableEq, Repr

/-- The loop `for (size_t i = 2; i < tokens.size(); ++i)` of `loadFromFile`, run on the
tokens from index 2 on: trim, normalize, `push_back` unless empty. -/
def prereqLoop : List Str → List Str → List Str
  | [], prereqs => prereqs
  | t :: rest, prereqs =>
    let p := toUpper (trim t)
    if !p.isEmpty then prereqLoop rest (prereqs ++ [p]) else prereqLoop rest prereqs

/-- Body of the read loop of `loadFromFile` up to the point of insertion. -/
def parseLine (line : Str) : LineResult :=
  let trimmed := trim line
  if trimmed.isEmpty then .blank
  else
    let tokens := splitCSV trimmed
    if tokens.length < 2 then .fewerThanTwoFields
    else
      let number := toUpper (trim (tokens.getD 0 []))
      let title := trim (tokens.getD 1 [])
      if number.isEmpty || title.isEmpty then .emptyNumberOrTitle
      else
        .course
          { number := number
            title := title
            prereqs := if tokens.length > 2 then prereqLoop (tokens.drop 2) [] else [] }

/-- The records of the lines of a source that the read loop accepts, in source order. -/
def acceptedRecords (lines : List Str) : List Course :=
  lines.filterMap fun line =>
    match parseLine line with
    | .course c => some c
    | _ => none

/-- The variables the read loop of `loadFromFile` updates. -/
structure ReadState where
  courses_ : Catalog
  lineNo : Nat
  cerr : List Err
deriving DecidableEq, Repr

/-- One round of `while (std::getline(fin, line))`. -/
def readStep (st : ReadState) (line : Str) : ReadState :=
  let lineNo := st.lineNo + 1
  match parseLine line with
  | .blank => { st with lineNo := lineNo }
  | .fewerThanTwoFields =>
    { st with lineNo := lineNo, cerr := st.cerr ++ [Err.fewerThanTwoFields lineNo] }
  | .emptyNumberOrTitle =>
    { st with lineNo := lineNo, cerr := st.cerr ++ [Err.emptyNumberOrTitle lineNo] }
  | .course c => { st with lineNo := lineNo, courses_ := st.courses_.assign c.number c }

/-- The first pass of `loadFromFile`, from the cleared map. -/
def readLines (lines : List Str) : ReadState :=
  lines.foldl readStep { courses_ := [], lineNo := 0, cerr := [] }

/-- The inner loop of the second pass, over the prerequisites of one course: the
running `missingCount` and the warnings written. -/
def validateCourse (courses_ : Catalog) (course : Course) :
    List Str → Nat × List Err → Nat × List Err
  | [], acc => acc
  | p :: rest, acc =>
    if (courses_.find p).isNone then
      validateCourse courses_ course rest (acc.1 + 1, acc.2 ++ [Err.prereqNotFound p course.number])
    else validateCourse courses_ course rest acc

/-- The outer loop of the second pass, `for (auto const& kv : courses_)`, over the
entries `kvs` still to visit. -/
def validateLoop (courses_ : Catalog) : Catalog → Nat × List Err → Nat × List Err
  | [], acc => acc
  | kv :: rest, acc =>
    validateLoop courses_ rest (validateCourse courses_ kv.2 kv.2.prereqs acc)

/-- The second pass of `loadFromFile`: `missingCount` and the warnings written. -/
def validate (courses_ : Catalog) : Nat × List Err := validateLoop courses_ courses_ (0, [])

/-- What a call of `loadFromFile` returns and leaves behind. -/
structure LoadResult where
  ret : Bool
  app : AdvisingProgram
  cout : List Out
  cerr : List Err
deriving DecidableEq, Repr

/-- The method `AdvisingProgram::loadFromFile`; `fin` is `none` when the file cannot be
opened and else the lines of the file. -/
def loadFromFile (app : AdvisingProgram) (filename : Str) (fin : Option (List Str)) :
    LoadResult :=
  match fin with
  | none => { ret := false, app := app, cout := [], cerr := [Err.couldNotOpen filename] }
  | some lines =>
    let st := readLines lines
    if st.courses_.isEmpty then
      { ret := false
        app := { app with courses_ := st.courses_ }
        cout := []
        cerr := st.cerr ++ [Err.noValidRecords] }
    else
      let v := validate st.courses_
      { ret := true
        app := { courses_ := st.courses_, loaded_ := true }
        cout := [Out.loaded st.courses_.length v.1]
        cerr := st.cerr ++ v.2 }

/-! ## Queries -/

/-- The comparison `operator<` of `std::string`: lexicographic on the characters. -/
def strLt : Str → Str → Bool
  | _, [] => false
  | [], _ :: _ => true
  | a :: as, b :: bs =>
    if a.toNat < b.toNat then true
    else if b.toNat < a.toNat then false
    else strLt as bs

/-- Order in which `std::sort` leaves two strings: `a` before `b` unless `b < a`. -/
def strLe (a b : Str) : Prop := strLt b a = false

instance : DecidableRel strLe := fun a b => inferInstanceAs (Decidable (strLt b a = false))

/-- The call `std::sort(keys.begin(), keys.end())`. -/
def sortKeys (keys : List Str) : List Str := keys.insertionSort strLe

/-- The call `loadedCheck()`: `none` when it returns true, else the message it writes. -/
def loadedCheck (app : AdvisingProgram) : Option Out :=
  if !app.loaded_ then some Out.loadFirst else none

/-- The loop of `printCourseList` over the sorted keys; `courses_.at(code)` throws
`std::out_of_range` for an absent key, which is `none` here. -/
def listLoop (courses_ : Catalog) : List Str → Option (List Out)
  | [] => some []
  | code :: rest =>
    match courses_.find code with
    | none => none
    | some c =>
      match listLoop courses_ rest with
      | none => none
      | some out => some (Out.courseLine c.number c.title :: out)

/-- The method `AdvisingProgram::printCourseList`: the lines written to `std::cout`, or
`none` for an uncaught exception. -/
def printCourseList (app : AdvisingProgram) : Option (List Out) :=
  match loadedCheck app with
  | some msg => some [msg]
  | none =>
    match listLoop app.courses_ (sortKeys app.courses_.keys) with
    | none => none
    | some out => some (Out.scheduleHeader :: out)

/-- An item of the `Prerequisites:` line. -/
def prereqItem (courses_ : Catalog) (p : Str) : Str :=
  match courses_.find p with
  | some pc => pc.number
  | none => p

/-- An item of the `Prerequisite titles:` line. -/
def prereqTitleItem (courses_ : Catalog) (p : Str) : Str :=
  match courses_.find p with
  | some pc => pc.title
  | none => "(missing: ".toList ++ p ++ ")".toList

/-- The method `AdvisingProgram::printCourseDetails`: the lines written to `std::cout`. -/
def printCourseDetails (app : AdvisingProgram) (userInput : Str) : List Out :=
  match loadedCheck app with
  | some msg => [msg]
  | none =>
    let code := toUpper (trim userInput)
    if code.isEmpty then [Out.enterCourseNumber]
    else
      match app.courses_.find code with
      | none => [Out.notFound code]
      | some c =>
        Out.courseLine c.number c.title ::
          (if c.prereqs.isEmpty then [Out.prereqsNone]
           else
             [Out.prereqs (c.prereqs.map (prereqItem app.courses_)),
              Out.prereqTitles (c.prereqs.map (prereqTitleItem app.courses_))])

/-! ## Sequences of operations -/

/-- A call of one of the three public operations. -/
inductive Op where
  | load (filename : Str) (fin : Option (List Str))
  | list
  | detail (userInput : Str)

/-- The store after an operation; the two queries are `const` methods. -/
def Op.apply (app : AdvisingProgram) : Op → AdvisingProgram
  | .load filename fin => (loadFromFile app filename fin).app
  | .list => app
  | .detail _ => app

/-- The store after a sequence of operations on a freshly constructed store. -/
def run (ops : List Op) : AdvisingProgram := ops.foldl Op.apply AdvisingProgram.init

/-- Whether a load of the sequence `ops`, run from the store `app`, returned true. -/
def anyLoadSucceeded : AdvisingProgram → List Op → Bool
  | _, [] => false
  | app, op :: ops =>
    (match op with
      | .load filename fin => (loadFromFile app filename fin).ret
      | _ => false) || anyLoadSucceeded (op.apply app) ops

/-- The invariant of the map in every store that the operations can reach: no key
twice, and every entry is stored under the identifier of its record, which is not
empty, has a title that is not empty, is a fixed point of the lookup normalization and
holds no comma and no letter `a`..`z`. -/
def Catalog.Inv (m : Catalog) : Prop :=
  m.keys.Nodup ∧
    ∀ kv ∈ m, kv.2.number = kv.1 ∧ kv.1 ≠ [] ∧ kv.2.title ≠ [] ∧ toUpper (trim kv.1) = kv.1 ∧
      ∀ ch ∈ kv.1, ch ≠ ',' ∧ ¬ (97 ≤ ch.toNat ∧ ch.toNat ≤ 122)

/-! ## Example data -/

/-- The four-line example source of the specification. -/
def exampleSource : List Str :=
  ["CSCI101, Introduction to Programming".toList,
   "CSCI200, Data Structures, CSCI101".toList,
   "MATH201, Discrete Math".toList,
   "CSCI300, Algorithms, CSCI200, MATH999".toList]

/-- A source with a single record. -/
def singleSource : List Str := ["CSCI101, Introduction to Programming".toList]

/-- A source with lines and no record: an empty line and a line of blanks. -/
def blankSource : List Str := ["".toList, "   ".toList]

/-! ## Facts about the utility helpers -/

theorem char_toNat_eq_iff (c d : Char) : c.toNat = d.toNat ↔ c = d := by
  constructor
  · intro h
    apply Char.ext
    apply UInt32.ext
    exact h
  · intro h; rw [h]

theorem isspace_iff (c : Char) :
    isspace c = true ↔
      c = ' ' ∨ c = '\t' ∨ c = '\n' ∨ c = Char.ofNat 11 ∨ c = Char.ofNat 12 ∨ c = '\r' := by
  simp only [isspace, Bool.or_eq_true, beq_iff_eq, ← char_toNat_eq_iff]
  simp only [or_assoc]
  rfl

theorem trimBegin_eq (s : Str) (b : Nat) :
    trimBegin s b = b + (s.takeWhile isspace).length := by
  induction s generalizing b with
  | nil => simp [trimBegin]
  | cons c rest ih =>
    by_cases h : isspace c = true
    · simp [trimBegin, h, ih]; omega
    · simp [trimBegin, h]

theorem drop_takeWhile_length (p : Char → Bool) (s : Str) :
    s.drop (s.takeWhile p).length = s.dropWhile p := by
  induction s with
  | nil => simp
  | cons c rest ih =>
    by_cases h : p c = true
    · simp [List.takeWhile, List.dropWhile, h, ih]
    · simp [List.takeWhile, List.dropWhile, h]

theorem trimEnd_le (s : Str) (b e : Nat) : trimEnd s b e ≤ e := by
  induction e with
  | zero => simp [trimEnd]
  | succ e ih =>
    unfold trimEnd
    split
    · omega
    · omega

theorem trimEnd_ge (s : Str) (b e : Nat) (h : b ≤ e) : b ≤ trimEnd s b e := by
  induction e with
  | zero => simpa [trimEnd] using h
  | succ e ih =>
    unfold trimEnd
    split
    · rename_i h1
      by_cases hb : b ≤ e
      · exact ih hb
      · omega
    · exact h

theorem take_trimEnd (s : Str) (b e : Nat) (hb : b ≤ e) (he : e ≤ s.length) :
    (s.drop b).take (trimEnd s b e - b) = ((s.take e).drop b).rdropWhile isspace := by
  induction e with
  | zero =>
    have : b = 0 := by omega
    subst this
    simp [trimEnd]
  | succ e ih =>
    by_cases hbe : b = e + 1
    · subst hbe
      have h1 : trimEnd s (e + 1) (e + 1) = e + 1 := by
        rw [trimEnd, if_neg (by omega)]
      have h2 : (s.take (e + 1)).drop (e + 1) = [] :=
        List.drop_eq_nil_of_le (by simp)
      rw [h1, h2]
      simp [List.rdropWhile]
    · have hb' : b ≤ e := by omega
      have he' : e < s.length := by omega
      have hsplit : (s.take (e + 1)).drop b = (s.take e).drop b ++ [s.getD e ' '] := by
        rw [List.take_succ]
        rw [List.drop_append_of_le_length (by simp; omega)]
        simp [List.getD, List.getElem?_eq_getElem he']
      rw [hsplit, List.rdropWhile_concat]
      by_cases hsp : isspace (s.getD e ' ') = true
      · have h1 : trimEnd s b (e + 1) = trimEnd s b e := by
          rw [trimEnd, if_pos ⟨by omega, hsp⟩]
        rw [h1, if_pos hsp]
        exact ih hb' (by omega)
      · have h1 : trimEnd s b (e + 1) = e + 1 := by
          rw [trimEnd, if_neg (fun h => hsp h.2)]
        rw [h1, if_neg hsp, ← hsplit]
        rw [List.drop_take]

/-- The two loops of `trim` drop the leading and then the trailing whitespace. -/
theorem trim_eq (s : Str) : trim s = (s.dropWhile isspace).rdropWhile isspace := by
  unfold trim
  simp only
  have hb : trimBegin s 0 = (s.takeWhile isspace).length := by simp [trimBegin_eq]
  rw [hb]
  have hle : (s.takeWhile isspace).length ≤ s.length :=
    (List.takeWhile_sublist _).length_le
  rw [take_trimEnd s _ s.length hle le_rfl, List.take_length, drop_takeWhile_length]

theorem rdropWhile_append_rtakeWhile (p : Char → Bool) (l : Str) :
    l.rdropWhile p ++ l.rtakeWhile p = l := by
  simp only [List.rdropWhile, List.rtakeWhile, ← List.reverse_append,
    List.takeWhile_append_dropWhile, List.reverse_reverse]

/-- The result of `trim` is the input without a run of whitespace at its start and a
run of whitespace at its end, and it neither starts nor ends with whitespace. -/
theorem trim_spec (s : Str) :
    ∃ l r, s = l ++ trim s ++ r ∧ (∀ c ∈ l, isspace c = true) ∧ (∀ c ∈ r, isspace c = true) ∧
      ∀ h : trim s ≠ [],
        isspace ((trim s).head h) = false ∧ isspace ((trim s).getLast h) = false := by
  refine ⟨s.takeWhile isspace, (s.dropWhile isspace).rtakeWhile isspace, ?_, ?_, ?_, ?_⟩
  · rw [trim_eq, List.append_assoc, rdropWhile_append_rtakeWhile,
      List.takeWhile_append_dropWhile]
  · intro c hc; exact List.mem_takeWhile_imp hc
  · intro c hc; exact List.mem_rtakeWhile_imp hc
  · intro h
    constructor
    · have hpre : trim s <+: s.dropWhile isspace := by
        rw [trim_eq]; exact List.rdropWhile_prefix _ _
      obtain ⟨t, ht⟩ := hpre
      have hd : s.dropWhile isspace ≠ [] := by
        intro h0; rw [h0] at ht; simp at ht; exact h ht.1
      have := List.head_dropWhile_not isspace s hd
      have h2 : (s.dropWhile isspace).head hd = (trim s).head h := by
        simp only [← ht]
        rw [List.head_append_of_ne_nil]
      rw [← h2]; simpa using this
    · have h' : (s.dropWhile isspace).rdropWhile isspace ≠ [] := by rw [← trim_eq]; exact h
      have := List.rdropWhile_last_not isspace (s.dropWhile isspace) h'
      simp only [trim_eq]
      simpa using this

theorem trim_eq_nil_iff (s : Str) : trim s = [] ↔ ∀ c ∈ s, isspace c = true := by
  rw [trim_eq, List.rdropWhile_eq_nil_iff]
  constructor
  · intro h c hc
    by_contra hn
    have hd : c ∈ s.dropWhile isspace := by
      have hs := List.takeWhile_append_dropWhile isspace s
      rw [← hs] at hc
      rcases List.mem_append.1 hc with h1 | h1
      · exact absurd (List.mem_takeWhile_imp h1) hn
      · exact h1
    exact hn (h c hd)
  · intro h c hc
    exact h c ((List.dropWhile_sublist _).subset hc)
theorem toupper_spec (ch : Char) :
    ('a'.toNat ≤ ch.toNat ∧ ch.toNat ≤ 'z'.toNat →
        (toupper ch).toNat = ch.toNat - 32 ∧
          'A'.toNat ≤ (toupper ch).toNat ∧ (toupper ch).toNat ≤ 'Z'.toNat) ∧
      (¬ ('a'.toNat ≤ ch.toNat ∧ ch.toNat ≤ 'z'.toNat) → toupper ch = ch) := by
  have ha : 'a'.toNat = 97 := rfl
  have hz : 'z'.toNat = 122 := rfl
  have hA : 'A'.toNat = 65 := rfl
  have hZ : 'Z'.toNat = 90 := rfl
  rw [ha, hz, hA, hZ]
  constructor
  · intro h
    have key : (Char.ofNat (ch.toNat - 32)).toNat = ch.toNat - 32 := by
      obtain ⟨n, hn⟩ : ∃ n, n = ch.toNat - 32 := ⟨_, rfl⟩
      rw [← hn]
      have h1 : 65 ≤ n := by omega
      have h2 : n ≤ 90 := by omega
      interval_cases n <;> rfl
    simp only [toupper, h, and_self, if_true, key, true_and]
    obtain ⟨h1, h2⟩ := h
    clear key
    generalize ch.toNat = n at h1 h2
    omega
  · intro h
    simp [toupper, h]

/-! ### splitCSV -/

theorem readUntil_snd_length (d : Char) (s : Str) :
    (readUntil d s).2.length ≤ s.length - 1 := by
  induction s with
  | nil => simp [readUntil]
  | cons c cs ih =>
    unfold readUntil
    split
    · simp
    · simp only [List.length_cons, Nat.add_sub_cancel]; omega

theorem splitLoop_acc (fuel : Nat) (ss : Str) (out : List Str) :
    splitLoop fuel ss out = out ++ splitLoop fuel ss [] := by
  induction fuel generalizing ss out with
  | zero => simp [splitLoop]
  | succ fuel ih =>
    cases ss with
    | nil => simp [splitLoop, getline]
    | cons c cs =>
      simp only [splitLoop, getline]
      rw [ih _ (out ++ _), ih _ ([] ++ _)]
      simp

/-- The loop of `splitCSV` ends because the stream is exhausted, never for lack of
rounds: any number of rounds from the length of the stream on gives the same result. -/
theorem splitLoop_fuel (fuel : Nat) (ss : Str) (h : ss.length ≤ fuel) :
    splitLoop fuel ss [] = splitCSV ss := by
  induction fuel using Nat.strong_induction_on generalizing ss with
  | _ fuel ih =>
    cases ss with
    | nil => cases fuel <;> simp [splitCSV, splitLoop, getline]
    | cons c cs =>
      cases fuel with
      | zero => simp at h
      | succ fuel =>
        have hlen := readUntil_snd_length ',' (c :: cs)
        simp only [List.length_cons, Nat.add_sub_cancel] at hlen h
        simp only [splitCSV, List.length_cons, splitLoop, getline]
        rw [splitLoop_acc fuel, splitLoop_acc cs.length]
        rw [ih fuel (by omega) _ (by omega), ih cs.length (by omega) _ hlen]

theorem splitCSV_nil : splitCSV [] = [] := by simp [splitCSV, splitLoop]

theorem splitCSV_cons_getline (c : Char) (cs : Str) :
    splitCSV (c :: cs) =
      (readUntil ',' (c :: cs)).1 :: splitCSV (readUntil ',' (c :: cs)).2 := by
  have hlen := readUntil_snd_length ',' (c :: cs)
  simp only [List.length_cons, Nat.add_sub_cancel] at hlen
  conv => lhs; simp only [splitCSV, List.length_cons, splitLoop, getline]
  rw [splitLoop_acc, splitLoop_fuel _ _ hlen]
  simp

theorem splitCSV_comma (cs : Str) : splitCSV (',' :: cs) = [] :: splitCSV cs := by
  rw [splitCSV_cons_getline]; simp [readUntil]

theorem splitCSV_single (c : Char) (h : c ≠ ',') : splitCSV [c] = [[c]] := by
  rw [splitCSV_cons_getline]; simp [readUntil, h, splitCSV_nil]

theorem splitCSV_cons_cons (c c' : Char) (cs : Str) (h : c ≠ ',') :
    ∃ t ts, splitCSV (c' :: cs) = t :: ts ∧ splitCSV (c :: c' :: cs) = (c :: t) :: ts := by
  refine ⟨(readUntil ',' (c' :: cs)).1, splitCSV (readUntil ',' (c' :: cs)).2, ?_, ?_⟩
  · rw [splitCSV_cons_getline]
  · rw [splitCSV_cons_getline c]
    conv => lhs; rw [readUntil]
    simp [h]

theorem splitCSV_ne_nil (s : Str) (h : s ≠ []) : splitCSV s ≠ [] := by
  cases s with
  | nil => exact absurd rfl h
  | cons c cs => rw [splitCSV_cons_getline]; simp

/-- Number of fields of a non-empty line: one more than its commas, less the empty
field after a final comma, which `std::getline` does not deliver. -/
theorem splitCSV_length (s : Str) (h : s ≠ []) :
    (splitCSV s).length = s.count ',' + (if s.getLast? = some ',' then 0 else 1) := by
  induction s with
  | nil => exact absurd rfl h
  | cons c cs ih =>
    cases cs with
    | nil =>
      by_cases hc : c = ','
      · subst hc; simp [splitCSV_comma, splitCSV_nil]
      · simp [splitCSV_single c hc, hc, List.count_cons]
    | cons c' cs' =>
      have ih' := ih (by simp)
      have hlast : (c :: c' :: cs').getLast? = (c' :: cs').getLast? := by
        simp [List.getLast?_cons_cons]
      rw [hlast]
      by_cases hc : c = ','
      · subst hc
        rw [splitCSV_comma, List.length_cons, ih', List.count_cons_self]
        omega
      · obtain ⟨t, ts, h1, h2⟩ := splitCSV_cons_cons c c' cs' hc
        rw [h1, List.length_cons] at ih'
        rw [h2, List.length_cons, ih', List.count_cons_of_ne (Ne.symm hc)]

theorem intercalate_cons_head (sep : Str) (c : Char) (t : Str) (ts : List Str) :
    sep.intercalate ((c :: t) :: ts) = c :: sep.intercalate (t :: ts) := by
  cases ts with
  | nil => simp [List.intercalate]
  | cons u us => simp [List.intercalate, List.intersperse]

theorem intercalate_nil_cons (sep : Str) (t : Str) (ts : List Str) :
    sep.intercalate ([] :: t :: ts) = sep ++ sep.intercalate (t :: ts) := by
  simp [List.intercalate, List.intersperse]

/-- Joining the fields of a non-empty line with commas gives the line back, up to the
final comma of a line that ends in one. -/
theorem splitCSV_intercalate (s : Str) (h : s ≠ []) :
    [','].intercalate (splitCSV s) ++ (if s.getLast? = some ',' then [','] else []) = s := by
  induction s with
  | nil => exact absurd rfl h
  | cons c cs ih =>
    cases cs with
    | nil =>
      by_cases hc : c = ','
      · subst hc; simp [splitCSV_comma, splitCSV_nil, List.intercalate]
      · simp [splitCSV_single c hc, hc, List.intercalate]
    | cons c' cs' =>
      have ih' := ih (by simp)
      have hlast : (c :: c' :: cs').getLast? = (c' :: cs').getLast? := by
        simp [List.getLast?_cons_cons]
      rw [hlast]
      by_cases hc : c = ','
      · subst hc
        obtain ⟨t, ts, ht⟩ := List.exists_cons_of_ne_nil (splitCSV_ne_nil (c' :: cs') (by simp))
        rw [splitCSV_comma, ht, intercalate_nil_cons, ← ht, List.append_assoc, ih']
        rfl
      · obtain ⟨t, ts, h1, h2⟩ := splitCSV_cons_cons c c' cs' hc
        rw [h2, intercalate_cons_head, ← h1, List.cons_append, ih']

/-! ### The container -/

theorem Catalog.find_assign_self (m : Catalog) (k : Str) (c : Course) :
    (m.assign k c).find k = some c := by
  induction m with
  | nil => simp [Catalog.assign, Catalog.find]
  | cons kv rest ih =>
    obtain ⟨k', c'⟩ := kv
    by_cases h : k' = k
    · simp [Catalog.assign, Catalog.find, h]
    · simp [Catalog.assign, Catalog.find, h, ih]

theorem Catalog.find_assign_ne (m : Catalog) (k k2 : Str) (c : Course) (hne : k2 ≠ k) :
    (m.assign k c).find k2 = m.find k2 := by
  induction m with
  | nil => simp [Catalog.assign, Catalog.find, Ne.symm hne]
  | cons kv rest ih =>
    obtain ⟨k', c'⟩ := kv
    by_cases h : k' = k
    · subst h
      simp [Catalog.assign, Catalog.find, Ne.symm hne]
    · by_cases h2 : k' = k2
      · subst h2
        simp [Catalog.assign, Catalog.find, h]
      · simp [Catalog.assign, Catalog.find, h, h2, ih]

theorem Catalog.keys_assign (m : Catalog) (k : Str) (c : Course) :
    (m.assign k c).keys = if k ∈ m.keys then m.keys else m.keys ++ [k] := by
  induction m with
  | nil => simp [Catalog.assign, Catalog.keys]
  | cons kv rest ih =>
    obtain ⟨k', c'⟩ := kv
    simp only [Catalog.keys] at ih ⊢
    by_cases h : k' = k
    · simp [Catalog.assign, h]
    · have h' : ¬ k = k' := fun e => h e.symm
      by_cases hm : k ∈ List.map Prod.fst rest
      · simp only [Catalog.assign, h, if_false, List.map_cons, ih, hm, if_true,
          List.mem_cons, or_true]
      · simp only [Catalog.assign, h, if_false, List.map_cons, ih, hm, List.mem_cons, h',
          or_self, List.cons_append]

theorem Catalog.find_eq_none_iff (m : Catalog) (k : Str) : m.find k = none ↔ k ∉ m.keys := by
  induction m with
  | nil => simp [Catalog.find, Catalog.keys]
  | cons kv rest ih =>
    obtain ⟨k', c'⟩ := kv
    simp only [Catalog.keys] at ih ⊢
    by_cases h : k' = k
    · simp [Catalog.find, h]
    · have h' : ¬ k = k' := fun e => h e.symm
      simp [Catalog.find, h, h', ih]

theorem Catalog.mem_of_find (m : Catalog) (k : Str) (c : Course) (h : m.find k = some c) :
    (k, c) ∈ m := by
  induction m with
  | nil => simp [Catalog.find] at h
  | cons kv rest ih =>
    obtain ⟨k', c'⟩ := kv
    by_cases hk : k' = k
    · simp [Catalog.find, hk] at h
      simp [hk, h]
    · simp [Catalog.find, hk] at h
      exact List.mem_cons_of_mem _ (ih h)

theorem Catalog.find_of_mem (m : Catalog) (hnd : m.keys.Nodup) (k : Str) (c : Course)
    (h : (k, c) ∈ m) : m.find k = some c := by
  induction m with
  | nil => simp at h
  | cons kv rest ih =>
    obtain ⟨k', c'⟩ := kv
    simp only [Catalog.keys, List.map_cons, List.nodup_cons] at hnd
    rcases List.mem_cons.1 h with h1 | h1
    · cases h1; simp [Catalog.find]
    · have hne : k' ≠ k := by
        intro e; subst e
        exact hnd.1 (List.mem_map_of_mem Prod.fst h1)
      simp only [Catalog.find, hne, if_false]
      exact ih hnd.2 h1

theorem Catalog.nodup_assign (m : Catalog) (k : Str) (c : Course) (hnd : m.keys.Nodup) :
    (m.assign k c).keys.Nodup := by
  rw [Catalog.keys_assign]
  split
  · exact hnd
  · rename_i hk
    exact List.Nodup.append hnd (List.nodup_singleton k) (by simpa using hk)

theorem Catalog.mem_keys_assign (m : Catalog) (k k2 : Str) (c : Course) :
    k2 ∈ (m.assign k c).keys ↔ k2 = k ∨ k2 ∈ m.keys := by
  rw [Catalog.keys_assign]
  split
  · rename_i hk
    constructor
    · intro h; exact Or.inr h
    · rintro (h | h)
      · rw [h]; exact hk
      · exact h
  · simp [or_comm]

theorem Catalog.filter_key_of_find (m : Catalog) (hnd : m.keys.Nodup) (k : Str) (c : Course)
    (h : m.find k = some c) : m.filter (fun kv => kv.1 = k) = [(k, c)] := by
  induction m with
  | nil => simp [Catalog.find] at h
  | cons kv rest ih =>
    obtain ⟨k', c'⟩ := kv
    simp only [Catalog.keys, List.map_cons, List.nodup_cons] at hnd
    by_cases hk : k' = k
    · subst hk
      simp only [Catalog.find, if_true, Option.some.injEq] at h
      subst h
      have : rest.filter (fun kv => kv.1 = k') = [] := by
        rw [List.filter_eq_nil_iff]
        intro kv hkv hk
        have hk' : kv.1 = k' := by simpa using hk
        exact hnd.1 (hk' ▸ List.mem_map_of_mem Prod.fst hkv)
      simp [List.filter_cons, this]
    · simp only [Catalog.find, hk, if_false] at h
      simp [List.filter_cons, hk, ih hnd.2 h]
theorem Catalog.assignAll_nil (m : Catalog) : m.assignAll [] = m := rfl

theorem Catalog.assignAll_cons (m : Catalog) (c : Course) (cs : List Course) :
    m.assignAll (c :: cs) = (m.assign c.number c).assignAll cs := rfl

theorem Catalog.assignAll_append (m : Catalog) (cs ds : List Course) :
    m.assignAll (cs ++ ds) = (m.assignAll cs).assignAll ds := by
  simp [Catalog.assignAll, List.foldl_append]

theorem Catalog.find_assignAll_of_not_mem (m : Catalog) (cs : List Course) (k : Str)
    (h : ∀ c ∈ cs, c.number ≠ k) : (m.assignAll cs).find k = m.find k := by
  induction cs generalizing m with
  | nil => rfl
  | cons c cs ih =>
    rw [Catalog.assignAll_cons, ih _ (fun c' hc' => h c' (List.mem_cons_of_mem _ hc'))]
    exact Catalog.find_assign_ne m c.number k c (Ne.symm (h c (List.mem_cons_self _ _)))

theorem Catalog.find_assignAll_last (m : Catalog) (pre post : List Course) (c : Course)
    (h : ∀ c' ∈ post, c'.number ≠ c.number) :
    (m.assignAll (pre ++ c :: post)).find c.number = some c := by
  rw [Catalog.assignAll_append, Catalog.assignAll_cons,
    Catalog.find_assignAll_of_not_mem _ post _ h, Catalog.find_assign_self]

theorem Catalog.mem_keys_assignAll (m : Catalog) (cs : List Course) (k : Str) :
    k ∈ (m.assignAll cs).keys ↔ k ∈ m.keys ∨ ∃ c ∈ cs, c.number = k := by
  induction cs generalizing m with
  | nil => simp [Catalog.assignAll_nil]
  | cons c cs ih =>
    rw [Catalog.assignAll_cons, ih, Catalog.mem_keys_assign]
    constructor
    · rintro ((h | h) | ⟨c', hc', h⟩)
      · exact Or.inr ⟨c, List.mem_cons_self _ _, h.symm⟩
      · exact Or.inl h
      · exact Or.inr ⟨c', List.mem_cons_of_mem _ hc', h⟩
    · rintro (h | ⟨c', hc', h⟩)
      · exact Or.inl (Or.inr h)
      · rcases List.mem_cons.1 hc' with e | e
        · subst e; exact Or.inl (Or.inl h.symm)
        · exact Or.inr ⟨c', e, h⟩

theorem Catalog.nodup_assignAll (m : Catalog) (cs : List Course) (hnd : m.keys.Nodup) :
    (m.assignAll cs).keys.Nodup := by
  induction cs generalizing m with
  | nil => exact hnd
  | cons c cs ih =>
    rw [Catalog.assignAll_cons]
    exact ih _ (Catalog.nodup_assign m c.number c hnd)

theorem Catalog.mem_assign (m : Catalog) (k : Str) (c : Course) (kv : Str × Course)
    (h : kv ∈ m.assign k c) : kv = (k, c) ∨ kv ∈ m := by
  induction m with
  | nil => simpa [Catalog.assign] using h
  | cons e rest ih =>
    obtain ⟨k', c'⟩ := e
    by_cases hk : k' = k
    · simp only [Catalog.assign, hk, if_true, List.mem_cons] at h
      rcases h with h | h
      · exact Or.inl h
      · exact Or.inr (List.mem_cons_of_mem _ h)
    · simp only [Catalog.assign, hk, if_false, List.mem_cons] at h
      rcases h with h | h
      · exact Or.inr (h ▸ List.mem_cons_self _ _)
      · rcases ih h with h2 | h2
        · exact Or.inl h2
        · exact Or.inr (List.mem_cons_of_mem _ h2)

theorem Catalog.mem_assignAll (m : Catalog) (cs : List Course) (kv : Str × Course)
    (h : kv ∈ m.assignAll cs) : kv ∈ m ∨ (kv.2 ∈ cs ∧ kv.2.number = kv.1) := by
  induction cs generalizing m with
  | nil => exact Or.inl h
  | cons c cs ih =>
    rw [Catalog.assignAll_cons] at h
    rcases ih _ h with h1 | ⟨h1, h2⟩
    · rcases Catalog.mem_assign m c.number c kv h1 with e | e
      · subst e; exact Or.inr ⟨List.mem_cons_self _ _, rfl⟩
      · exact Or.inl e
    · exact Or.inr ⟨List.mem_cons_of_mem _ h1, h2⟩

theorem Catalog.assign_ne_nil (m : Catalog) (k : Str) (c : Course) : m.assign k c ≠ [] := by
  cases m with
  | nil => simp [Catalog.assign]
  | cons e rest =>
    obtain ⟨k', c'⟩ := e
    by_cases hk : k' = k <;> simp [Catalog.assign, hk]

theorem Catalog.assignAll_eq_nil_iff (cs : List Course) :
    Catalog.assignAll [] cs = [] ↔ cs = [] := by
  constructor
  · intro h
    by_contra hne
    obtain ⟨c, hc⟩ := List.exists_mem_of_ne_nil cs hne
    have : c.number ∈ (Catalog.assignAll [] cs).keys :=
      (Catalog.mem_keys_assignAll [] cs c.number).2 (Or.inr ⟨c, hc, rfl⟩)
    rw [h] at this
    simp [Catalog.keys] at this
  · intro h; rw [h]; rfl

/-! ### The read loop -/

theorem toUpper_eq_nil_iff (s : Str) : toUpper s = [] ↔ s = [] := by
  simp [toUpper]

theorem prereqLoop_eq (ts acc : List Str) :
    prereqLoop ts acc = acc ++ (ts.map fun t => toUpper (trim t)).filter (fun p => p ≠ []) := by
  induction ts generalizing acc with
  | nil => simp [prereqLoop]
  | cons t ts ih =>
    by_cases h : toUpper (trim t) = []
    · simp [prereqLoop, h, ih]
    · simp [prereqLoop, h, ih, List.filter_cons]

theorem parseLine_of_split (line f0 f1 : Str) (rest : List Str)
    (hsplit : splitCSV (trim line) = f0 :: f1 :: rest) (h0 : trim f0 ≠ []) (h1 : trim f1 ≠ []) :
    parseLine line =
      .course { number := toUpper (trim f0), title := trim f1, prereqs := prereqLoop rest [] } := by
  have hne : trim line ≠ [] := by
    intro h; rw [h, splitCSV_nil] at hsplit; exact absurd hsplit (by simp)
  have hu : toUpper (trim f0) ≠ [] := fun h => h0 ((toUpper_eq_nil_iff _).1 h)
  unfold parseLine
  simp only [hsplit, List.isEmpty_eq_true, hne, if_false, List.length_cons, List.getD_cons_zero,
    List.getD_cons_succ, List.drop_succ_cons, List.drop_zero, Bool.or_eq_true, hu, h1, or_self]
  have : ¬ (rest.length + 1 + 1 < 2) := by omega
  simp only [this, if_false, LineResult.course.injEq, Course.mk.injEq, true_and]
  cases rest with
  | nil => simp [prereqLoop]
  | cons r rs => simp

theorem parseLine_course_inv (line : Str) (c : Course) (h : parseLine line = .course c) :
    ∃ f0 f1 rest, splitCSV (trim line) = f0 :: f1 :: rest ∧ trim f0 ≠ [] ∧ trim f1 ≠ [] ∧
      c = { number := toUpper (trim f0), title := trim f1, prereqs := prereqLoop rest [] } := by
  unfold parseLine at h
  simp only at h
  split at h
  · exact absurd h (by simp)
  · split at h
    · exact absurd h (by simp)
    · rename_i hlen
      obtain ⟨f0, f1, rest, hs⟩ : ∃ f0 f1 rest, splitCSV (trim line) = f0 :: f1 :: rest := by
        match hm : splitCSV (trim line) with
        | [] => rw [hm] at hlen; simp at hlen
        | [_] => rw [hm] at hlen; simp at hlen
        | f0 :: f1 :: rest => exact ⟨f0, f1, rest, rfl⟩
      split at h
      · exact absurd h (by simp)
      · rename_i hemp
        rw [hs] at hemp
        simp only [List.getD_cons_zero, List.getD_cons_succ, Bool.or_eq_true,
          List.isEmpty_eq_true, not_or, toUpper_eq_nil_iff] at hemp
        refine ⟨f0, f1, rest, hs, hemp.1, hemp.2, ?_⟩
        have := parseLine_of_split line f0 f1 rest hs hemp.1 hemp.2
        unfold parseLine at this
        simp only at this
        rw [if_neg (by assumption), if_neg (by assumption)] at this
        rw [hs] at this h
        simp only [List.getD_cons_zero, List.getD_cons_succ, Bool.or_eq_true,
          List.isEmpty_eq_true, toUpper_eq_nil_iff, hemp.1, hemp.2, or_self, if_false] at this h
        rw [h] at this
        exact LineResult.course.inj this

theorem readStep_courses (st : ReadState) (line : Str) :
    (readStep st line).courses_ =
      match parseLine line with
      | .course c => st.courses_.assign c.number c
      | _ => st.courses_ := by
  unfold readStep
  cases parseLine line <;> rfl

theorem acceptedRecords_cons (line : Str) (lines : List Str) :
    acceptedRecords (line :: lines) =
      match parseLine line with
      | .course c => c :: acceptedRecords lines
      | _ => acceptedRecords lines := by
  unfold acceptedRecords
  rw [List.filterMap_cons]
  cases parseLine line <;> rfl

theorem foldl_readStep_courses (lines : List Str) (st : ReadState) :
    (lines.foldl readStep st).courses_ = st.courses_.assignAll (acceptedRecords lines) := by
  induction lines generalizing st with
  | nil => rfl
  | cons line lines ih =>
    rw [List.foldl_cons, ih, readStep_courses, acceptedRecords_cons]
    cases parseLine line <;> rfl

/-- The map the first pass leaves: the accepted records assigned in source order. -/
theorem readLines_courses (lines : List Str) :
    (readLines lines).courses_ = Catalog.assignAll [] (acceptedRecords lines) :=
  foldl_readStep_courses lines _

theorem mem_acceptedRecords (lines : List Str) (c : Course) :
    c ∈ acceptedRecords lines ↔ ∃ l ∈ lines, parseLine l = .course c := by
  unfold acceptedRecords
  rw [List.mem_filterMap]
  constructor
  · rintro ⟨l, hl, h⟩
    refine ⟨l, hl, ?_⟩
    cases hp : parseLine l <;> rw [hp] at h <;> simp at h
    rw [h]
  · rintro ⟨l, hl, h⟩
    exact ⟨l, hl, by rw [h]⟩

theorem acceptedRecords_append (xs ys : List Str) :
    acceptedRecords (xs ++ ys) = acceptedRecords xs ++ acceptedRecords ys := by
  simp [acceptedRecords, List.filterMap_append]

/-! ## The record parser -/

/-- C1: a line whose trimmed form splits into at least two fields `f0`, `f1`, with both
non-empty after trimming, is accepted; its record has identifier `toUpper (trim f0)` and
title `trim f1`, and the record is stored under exactly that identifier (every other
key keeps what it had). Here `trim` removes a run of whitespace (space, `\t`, `\n`,
`\v`, `\f`, `\r`) at each end and nothing else, and `toUpper` maps `a`..`z` to `A`..`Z`
and leaves every other character as it is. -/
theorem loadFromFile_identifier_title (st : ReadState) (line f0 f1 : Str) (rest : List Str)
    (hsplit : splitCSV (trim line) = f0 :: f1 :: rest)
    (h0 : trim f0 ≠ []) (h1 : trim f1 ≠ []) :
    (∃ c, parseLine line = .course c ∧ c.number = toUpper (trim f0) ∧ c.title = trim f1 ∧
        (readStep st line).courses_ = st.courses_.assign (toUpper (trim f0)) c ∧
        (readStep st line).courses_.find (toUpper (trim f0)) = some c ∧
        ∀ k, k ≠ toUpper (trim f0) → (readStep st line).courses_.find k = st.courses_.find k) ∧
      (∀ s : Str, ∃ l r, s = l ++ trim s ++ r ∧
        (∀ ch ∈ l, isspace ch = true) ∧ (∀ ch ∈ r, isspace ch = true) ∧
        ∀ h : trim s ≠ [],
          isspace ((trim s).head h) = false ∧ isspace ((trim s).getLast h) = false) ∧
      (∀ ch, isspace ch = true ↔
        ch = ' ' ∨ ch = '\t' ∨ ch = '\n' ∨ ch = Char.ofNat 11 ∨ ch = Char.ofNat 12 ∨ ch = '\r') ∧
      (∀ s : Str, toUpper s = s.map toupper) ∧
      ∀ ch : Char,
        ('a'.toNat ≤ ch.toNat ∧ ch.toNat ≤ 'z'.toNat →
          (toupper ch).toNat = ch.toNat - 32 ∧
            'A'.toNat ≤ (toupper ch).toNat ∧ (toupper ch).toNat ≤ 'Z'.toNat) ∧
        (¬ ('a'.toNat ≤ ch.toNat ∧ ch.toNat ≤ 'z'.toNat) → toupper ch = ch) := by
  refine ⟨?_, trim_spec, isspace_iff, fun _ => rfl, toupper_spec⟩
  have hp := parseLine_of_split line f0 f1 rest hsplit h0 h1
  refine ⟨_, hp, rfl, rfl, ?_, ?_, ?_⟩
  · rw [readStep_courses, hp]
  · rw [readStep_courses, hp]; exact Catalog.find_assign_self _ _ _
  · intro k hk
    rw [readStep_courses, hp]; exact Catalog.find_assign_ne _ _ _ _ hk

/-- An accepted line with surrounding blanks and a lower-case identifier. -/
theorem loadFromFile_identifier_title_witness :
    ∃ c, parseLine "  csci200 , Data Structures ,csci101 ".toList = .course c ∧
      c.number = "CSCI200".toList ∧ c.title = "Data Structures".toList ∧
      (readStep { courses_ := [], lineNo := 0, cerr := [] }
        "  csci200 , Data Structures ,csci101 ".toList).courses_.find "CSCI200".toList = some c :=
  match (loadFromFile_identifier_title { courses_ := [], lineNo := 0, cerr := [] }
      "  csci200 , Data Structures ,csci101 ".toList "csci200 ".toList
      " Data Structures ".toList ["csci101".toList] (by decide) (by decide) (by decide)).1 with
  | ⟨c, hc, hn, ht, _, hf, _⟩ => ⟨c, hc, hn.trans (by decide), ht.trans (by decide), hf⟩

/-- C2: for an accepted line the stored prerequisite list is the list of the fields from
index 2 on, each trimmed and uppercased, without exactly those that became empty: it
is a sublist of the normalized fields (order kept), and every non-empty value occurs
in it as often as among the normalized fields, whether it repeats or equals the
identifier of the course itself. -/
theorem loadFromFile_prereqs (st : ReadState) (line f0 f1 : Str) (rest : List Str)
    (hsplit : splitCSV (trim line) = f0 :: f1 :: rest)
    (h0 : trim f0 ≠ []) (h1 : trim f1 ≠ []) :
    ∃ c, parseLine line = .course c ∧
      (readStep st line).courses_.find c.number = some c ∧
      c.prereqs = (rest.map fun t => toUpper (trim t)).filter (fun p => p ≠ []) ∧
      List.Sublist c.prereqs (rest.map fun t => toUpper (trim t)) ∧
      ∀ p : Str, p ≠ [] → c.prereqs.count p = (rest.map fun t => toUpper (trim t)).count p := by
  have hp := parseLine_of_split line f0 f1 rest hsplit h0 h1
  have hpre : prereqLoop rest [] =
      (rest.map fun t => toUpper (trim t)).filter (fun p => p ≠ []) := by
    rw [prereqLoop_eq]; rfl
  refine ⟨_, hp, ?_, hpre, ?_, ?_⟩
  · rw [readStep_courses, hp]; exact Catalog.find_assign_self _ _ _
  · simp only [hpre]; exact List.filter_sublist _
  · intro p hpne
    simp only [hpre]
    rw [List.count_filter]
    simpa using hpne

/-- A line with a repeated prerequisite, a reference to the course itself, an empty
field in the middle and a trailing comma. -/
theorem loadFromFile_prereqs_witness :
    ∃ c, parseLine "CSCI200, Data Structures, csci101, , CSCI101,csci200,".toList = .course c ∧
      c.prereqs = ["CSCI101".toList, "CSCI101".toList, "CSCI200".toList] :=
  match loadFromFile_prereqs { courses_ := [], lineNo := 0, cerr := [] }
      "CSCI200, Data Structures, csci101, , CSCI101,csci200,".toList "CSCI200".toList
      " Data Structures".toList
      [" csci101".toList, " ".toList, " CSCI101".toList, "csci200".toList]
      (by decide) (by decide) (by decide) with
  | ⟨c, hc, _, hp, _⟩ => ⟨c, hc, hp.trans (by decide)⟩
/-- C3, as stated, fails on a line that ends in a comma: `CSCI101,` has one comma, but
`splitCSV` returns the single field `CSCI101`, and joining the fields with a comma
does not give the line back. -/
theorem splitCSV_trailing_comma_counterexample :
    splitCSV "CSCI101,".toList = ["CSCI101".toList] ∧
      "CSCI101,".toList.count ',' = 1 ∧
      (splitCSV "CSCI101,".toList).length ≠ "CSCI101,".toList.count ',' + 1 ∧
      [','].intercalate (splitCSV "CSCI101,".toList) ≠ "CSCI101,".toList := by
  decide

/-- C3 (amended): `splitCSV` splits a non-empty line on every comma and keeps empty
fields, except the empty field after a final comma. A line with `k` commas that does
not end in a comma yields `k + 1` fields, and joining them with commas gives the line
back; a line that ends in a comma yields `k` fields, and joining them with commas
gives the line without its final comma. The loop ends when the stream is exhausted:
more rounds than the length of the line change nothing. -/
theorem splitCSV_fields (line : Str) (hne : line ≠ []) :
    (line.getLast? ≠ some ',' →
        (splitCSV line).length = line.count ',' + 1 ∧
          [','].intercalate (splitCSV line) = line) ∧
      (line.getLast? = some ',' →
        (splitCSV line).length = line.count ',' ∧
          [','].intercalate (splitCSV line) ++ [','] = line) ∧
      ∀ fuel, line.length ≤ fuel → splitLoop fuel line [] = splitCSV line := by
  have hlen := splitCSV_length line hne
  have hjoin := splitCSV_intercalate line hne
  refine ⟨?_, ?_, fun fuel h => splitLoop_fuel fuel line h⟩
  · intro h
    rw [if_neg h] at hlen hjoin
    exact ⟨hlen, by simpa using hjoin⟩
  · intro h
    rw [if_pos h] at hlen hjoin
    exact ⟨by simpa using hlen, hjoin⟩

/-- A line with a leading comma, two consecutive commas and no comma at its end, and
the same line with a comma at its end. -/
theorem splitCSV_fields_witness :
    (splitCSV ",A,,B".toList = [[], "A".toList, [], "B".toList] ∧
        (splitCSV ",A,,B".toList).length = ",A,,B".toList.count ',' + 1 ∧
        [','].intercalate (splitCSV ",A,,B".toList) = ",A,,B".toList) ∧
      (splitCSV ",A,,B,".toList = [[], "A".toList, [], "B".toList] ∧
        (splitCSV ",A,,B,".toList).length = ",A,,B,".toList.count ',' ∧
        [','].intercalate (splitCSV ",A,,B,".toList) ++ [','] = ",A,,B,".toList) :=
  ⟨⟨by decide, (splitCSV_fields ",A,,B".toList (by decide)).1 (by decide)⟩,
    ⟨by decide, (splitCSV_fields ",A,,B,".toList (by decide)).2.1 (by decide)⟩⟩

/-- C4, as stated, fails on `CSCI101,`: the line contains a comma and its title field
is empty, yet it is rejected for having fewer than 2 fields, not for an empty
identifier or title. -/
theorem parseLine_trailing_comma_counterexample :
    trim "CSCI101,".toList ≠ [] ∧ ',' ∈ trim "CSCI101,".toList ∧
      parseLine "CSCI101,".toList = .fewerThanTwoFields ∧
      parseLine "CSCI101,".toList ≠ .emptyNumberOrTitle := by
  decide

theorem splitCSV_length_lt_two_iff (s : Str) (hne : s ≠ []) :
    (splitCSV s).length < 2 ↔ ',' ∉ s ∨ (s.count ',' = 1 ∧ s.getLast? = some ',') := by
  rw [splitCSV_length s hne]
  have hmem : ',' ∈ s ↔ 0 < s.count ',' := List.count_pos_iff.symm
  by_cases hl : s.getLast? = some ','
  · have : ',' ∈ s := List.mem_of_getLast?_eq_some hl
    have hpos := hmem.1 this
    simp only [hl, if_true, this, not_true_eq_false, false_or, and_true]
    omega
  · simp only [hl, if_false, and_false, or_false]
    rw [hmem]; omega

theorem readStep_rejected (st : ReadState) (line : Str) :
    (parseLine line = .fewerThanTwoFields →
        readStep st line =
          { st with lineNo := st.lineNo + 1,
                    cerr := st.cerr ++ [Err.fewerThanTwoFields (st.lineNo + 1)] }) ∧
      (parseLine line = .emptyNumberOrTitle →
        readStep st line =
          { st with lineNo := st.lineNo + 1,
                    cerr := st.cerr ++ [Err.emptyNumberOrTitle (st.lineNo + 1)] }) := by
  constructor <;> intro h <;> simp [readStep, h]

theorem parseLine_fewer_iff (line : Str) (hblank : trim line ≠ []) :
    parseLine line = .fewerThanTwoFields ↔ (splitCSV (trim line)).length < 2 := by
  unfold parseLine
  simp only [List.isEmpty_eq_true, hblank, if_false]
  constructor
  · intro h
    by_contra hlen
    rw [if_neg hlen] at h
    split at h <;> exact absurd h (by simp)
  · intro h; rw [if_pos h]

theorem parseLine_empty_iff (line : Str) :
    parseLine line = .emptyNumberOrTitle ↔
      ∃ f0 f1 rest, splitCSV (trim line) = f0 :: f1 :: rest ∧ (trim f0 = [] ∨ trim f1 = []) := by
  constructor
  · intro h
    unfold parseLine at h
    simp only at h
    split at h
    · exact absurd h (by simp)
    · split at h
      · exact absurd h (by simp)
      · rename_i hlen
        obtain ⟨f0, f1, rest, hs⟩ : ∃ f0 f1 rest, splitCSV (trim line) = f0 :: f1 :: rest := by
          match hm : splitCSV (trim line) with
          | [] => rw [hm] at hlen; simp at hlen
          | [_] => rw [hm] at hlen; simp at hlen
          | f0 :: f1 :: rest => exact ⟨f0, f1, rest, rfl⟩
        split at h
        · rename_i hemp
          rw [hs] at hemp
          simp only [List.getD_cons_zero, List.getD_cons_succ, Bool.or_eq_true,
            List.isEmpty_eq_true, toUpper_eq_nil_iff] at hemp
          exact ⟨f0, f1, rest, hs, hemp⟩
        · exact absurd h (by simp)
  · rintro ⟨f0, f1, rest, hs, hemp⟩
    have hne : trim line ≠ [] := by
      intro h; rw [h, splitCSV_nil] at hs; exact absurd hs (by simp)
    unfold parseLine
    simp only [hs, List.isEmpty_eq_true, hne, if_false, List.length_cons, List.getD_cons_zero,
      List.getD_cons_succ, Bool.or_eq_true, toUpper_eq_nil_iff, hemp, if_true]
    rw [if_neg (by omega)]

/-- C4 (amended): for a non-blank line the rejection is decided by the fields that
`splitCSV` returns for the trimmed line. The line is rejected for fewer than 2 fields
exactly when `splitCSV` returns fewer than 2 fields, which is when the trimmed line
has no comma or has one comma, at its end; it is rejected for an empty identifier or
title exactly when there are at least 2 fields and field 0 or field 1 is empty after
trimming. A rejected line leaves the map as it was and adds its warning, with the
line number, to the diagnostics. -/
theorem parseLine_rejection (st : ReadState) (line : Str) (hblank : trim line ≠ []) :
    (parseLine line = .fewerThanTwoFields ↔ (splitCSV (trim line)).length < 2) ∧
      ((splitCSV (trim line)).length < 2 ↔
        ',' ∉ trim line ∨ ((trim line).count ',' = 1 ∧ (trim line).getLast? = some ',')) ∧
      (parseLine line = .emptyNumberOrTitle ↔
        ∃ f0 f1 rest, splitCSV (trim line) = f0 :: f1 :: rest ∧
          (trim f0 = [] ∨ trim f1 = [])) ∧
      (parseLine line = .fewerThanTwoFields →
        (readStep st line).courses_ = st.courses_ ∧
          (readStep st line).cerr = st.cerr ++ [Err.fewerThanTwoFields (st.lineNo + 1)]) ∧
      (parseLine line = .emptyNumberOrTitle →
        (readStep st line).courses_ = st.courses_ ∧
          (readStep st line).cerr = st.cerr ++ [Err.emptyNumberOrTitle (st.lineNo + 1)]) := by
  refine ⟨parseLine_fewer_iff line hblank, splitCSV_length_lt_two_iff _ hblank,
    parseLine_empty_iff line, ?_, ?_⟩
  · intro h; rw [(readStep_rejected st line).1 h]; exact ⟨rfl, rfl⟩
  · intro h; rw [(readStep_rejected st line).2 h]; exact ⟨rfl, rfl⟩

/-- Two example lines: an empty identifier before the comma, and an identifier followed
by a single comma. -/
theorem parseLine_rejection_witness :
    parseLine "  ,Some Title".toList = .emptyNumberOrTitle ∧
      parseLine "CSCI101,".toList = .fewerThanTwoFields :=
  ⟨(parseLine_rejection { courses_ := [], lineNo := 0, cerr := [] } "  ,Some Title".toList
      (by decide)).2.2.1.2 ⟨[], "Some Title".toList, [], by decide, Or.inl (by decide)⟩,
    (parseLine_rejection { courses_ := [], lineNo := 0, cerr := [] } "CSCI101,".toList
      (by decide)).1.2 (by decide)⟩

/-! ## Loading -/

theorem readLines_courses_eq_nil_iff (lines : List Str) :
    (readLines lines).courses_ = [] ↔ acceptedRecords lines = [] := by
  rw [readLines_courses, Catalog.assignAll_eq_nil_iff]

theorem acceptedRecords_ne_nil_iff (lines : List Str) :
    acceptedRecords lines ≠ [] ↔ ∃ l ∈ lines, ∃ c, parseLine l = .course c := by
  constructor
  · intro h
    obtain ⟨c, hc⟩ := List.exists_mem_of_ne_nil _ h
    obtain ⟨l, hl, hp⟩ := (mem_acceptedRecords lines c).1 hc
    exact ⟨l, hl, c, hp⟩
  · rintro ⟨l, hl, c, hp⟩
    exact List.ne_nil_of_mem ((mem_acceptedRecords lines c).2 ⟨l, hl, hp⟩)

/-- A load of an openable source with an accepted line. -/
theorem loadFromFile_accepted (app : AdvisingProgram) (filename : Str) (lines : List Str)
    (h : acceptedRecords lines ≠ []) :
    loadFromFile app filename (some lines) =
      { ret := true
        app := { courses_ := (readLines lines).courses_, loaded_ := true }
        cout := [Out.loaded (readLines lines).courses_.length
          (validate (readLines lines).courses_).1]
        cerr := (readLines lines).cerr ++ (validate (readLines lines).courses_).2 } := by
  have hne : (readLines lines).courses_ ≠ [] := fun e => h ((readLines_courses_eq_nil_iff _).1 e)
  simp [loadFromFile, hne]

/-- A load of an openable source without an accepted line. -/
theorem loadFromFile_rejected (app : AdvisingProgram) (filename : Str) (lines : List Str)
    (h : acceptedRecords lines = []) :
    loadFromFile app filename (some lines) =
      { ret := false
        app := { courses_ := [], loaded_ := app.loaded_ }
        cout := []
        cerr := (readLines lines).cerr ++ [Err.noValidRecords] } := by
  have he : (readLines lines).courses_ = [] := (readLines_courses_eq_nil_iff _).2 h
  simp [loadFromFile, he]

theorem loadFromFile_ret_iff (app : AdvisingProgram) (filename : Str) (lines : List Str) :
    (loadFromFile app filename (some lines)).ret = true ↔ acceptedRecords lines ≠ [] := by
  by_cases h : acceptedRecords lines = []
  · simp [loadFromFile_rejected app filename lines h, h]
  · simp [loadFromFile_accepted app filename lines h, h]

theorem exists_last_of_exists {α : Type} (p : α → Prop) (xs : List α) (h : ∃ x ∈ xs, p x) :
    ∃ pre x post, xs = pre ++ x :: post ∧ p x ∧ ∀ y ∈ post, ¬ p y := by
  induction xs with
  | nil => obtain ⟨x, hx, _⟩ := h; simp at hx
  | cons a t ih =>
    by_cases ht : ∃ x ∈ t, p x
    · obtain ⟨pre, x, post, he, hp, hpost⟩ := ih ht
      exact ⟨a :: pre, x, post, by rw [he]; rfl, hp, hpost⟩
    · obtain ⟨x, hx, hpx⟩ := h
      rcases List.mem_cons.1 hx with e | e
      · subst e
        exact ⟨[], x, t, rfl, hpx, fun y hy hpy => ht ⟨y, hy, hpy⟩⟩
      · exact absurd ⟨x, e, hpx⟩ ht

theorem acceptedRecords_split (pre post : List Str) (l : Str) (c : Course)
    (hc : parseLine l = .course c) :
    acceptedRecords (pre ++ l :: post) = acceptedRecords pre ++ c :: acceptedRecords post := by
  rw [acceptedRecords_append, acceptedRecords_cons, hc]

theorem readLines_find_last (pre post : List Str) (l : Str) (c : Course)
    (hc : parseLine l = .course c)
    (hpost : ∀ l2 ∈ post, ∀ c2, parseLine l2 = .course c2 → c2.number ≠ c.number) :
    (readLines (pre ++ l :: post)).courses_.find c.number = some c := by
  rw [readLines_courses, acceptedRecords_split pre post l c hc]
  apply Catalog.find_assignAll_last
  intro c2 hc2
  obtain ⟨l2, hl2, hp2⟩ := (mem_acceptedRecords post c2).1 hc2
  exact hpost l2 hl2 c2 hp2

theorem readLines_keys_nodup (lines : List Str) : (readLines lines).courses_.keys.Nodup := by
  rw [readLines_courses]
  exact Catalog.nodup_assignAll [] _ (by simp [Catalog.keys])

theorem readLines_mem_keys (lines : List Str) (k : Str) :
    k ∈ (readLines lines).courses_.keys ↔
      ∃ l ∈ lines, ∃ c, parseLine l = .course c ∧ c.number = k := by
  rw [readLines_courses, Catalog.mem_keys_assignAll]
  constructor
  · rintro (h | ⟨c, hc, hk⟩)
    · simp [Catalog.keys] at h
    · obtain ⟨l, hl, hp⟩ := (mem_acceptedRecords lines c).1 hc
      exact ⟨l, hl, c, hp, hk⟩
  · rintro ⟨l, hl, c, hp, hk⟩
    exact Or.inr ⟨c, (mem_acceptedRecords lines c).2 ⟨l, hl, hp⟩, hk⟩

/-- C5: last write wins. When `k` is the identifier of an accepted line of the source,
the load succeeds, and there is a last accepted line with identifier `k`; the map
sends `k` to the record of that line (title and prerequisites), the entry for `k` is
the only entry with that key, no key occurs twice, and the keys are the identifiers of
the accepted lines. -/
theorem loadFromFile_last_write_wins (app : AdvisingProgram) (filename : Str)
    (lines : List Str) (k : Str)
    (hk : ∃ l ∈ lines, ∃ c, parseLine l = .course c ∧ c.number = k) :
    (loadFromFile app filename (some lines)).ret = true ∧
      (∃ pre l post c, lines = pre ++ l :: post ∧ parseLine l = .course c ∧ c.number = k ∧
        (∀ l2 ∈ post, ∀ c2, parseLine l2 = .course c2 → c2.number ≠ k) ∧
        (loadFromFile app filename (some lines)).app.courses_.find k = some c ∧
        (loadFromFile app filename (some lines)).app.courses_.filter (fun kv => kv.1 = k)
          = [(k, c)]) ∧
      (loadFromFile app filename (some lines)).app.courses_.keys.Nodup ∧
      ∀ k2, k2 ∈ (loadFromFile app filename (some lines)).app.courses_.keys ↔
        ∃ l ∈ lines, ∃ c, parseLine l = .course c ∧ c.number = k2 := by
  have hacc : acceptedRecords lines ≠ [] := by
    obtain ⟨l, hl, c, hp, _⟩ := hk
    exact (acceptedRecords_ne_nil_iff lines).2 ⟨l, hl, c, hp⟩
  rw [loadFromFile_accepted app filename lines hacc]
  refine ⟨rfl, ?_, readLines_keys_nodup lines, readLines_mem_keys lines⟩
  obtain ⟨pre, l, post, he, ⟨c, hp, hn⟩, hpost⟩ :=
    exists_last_of_exists (fun l => ∃ c, parseLine l = .course c ∧ c.number = k) lines hk
  have hpost2 : ∀ l2 ∈ post, ∀ c2, parseLine l2 = .course c2 → c2.number ≠ k :=
    fun l2 hl2 c2 hp2 hn2 => hpost l2 hl2 ⟨c2, hp2, hn2⟩
  have hfind : (readLines lines).courses_.find k = some c := by
    rw [he, ← hn]
    exact readLines_find_last pre post l c hp (by rw [hn]; exact hpost2)
  exact ⟨pre, l, post, c, he, hp, hn, hpost2, hfind,
    Catalog.filter_key_of_find _ (readLines_keys_nodup lines) k c hfind⟩

/-- An identifier given three times, in different letter case, with another record in
between: the record of the third line is the one stored, without the prerequisite of
the first. -/
theorem loadFromFile_last_write_wins_witness :
    (loadFromFile AdvisingProgram.init "courses.txt".toList
        (some ["CSCI101, First, MATH100".toList, "MATH100, Algebra".toList,
          "csci101, Second".toList, "Csci101 , Third, MATH100, MATH200".toList])).ret = true ∧
      (loadFromFile AdvisingProgram.init "courses.txt".toList
        (some ["CSCI101, First, MATH100".toList, "MATH100, Algebra".toList,
          "csci101, Second".toList,
          "Csci101 , Third, MATH100, MATH200".toList])).app.courses_.keys.Nodup ∧
      (loadFromFile AdvisingProgram.init "courses.txt".toList
        (some ["CSCI101, First, MATH100".toList, "MATH100, Algebra".toList,
          "csci101, Second".toList,
          "Csci101 , Third, MATH100, MATH200".toList])).app.courses_.find "CSCI101".toList
        = some { number := "CSCI101".toList, title := "Third".toList,
                 prereqs := ["MATH100".toList, "MATH200".toList] } :=
  have h := loadFromFile_last_write_wins AdvisingProgram.init "courses.txt".toList
    ["CSCI101, First, MATH100".toList, "MATH100, Algebra".toList,
      "csci101, Second".toList, "Csci101 , Third, MATH100, MATH200".toList] "CSCI101".toList
    ⟨"csci101, Second".toList, by decide, _, rfl, by decide⟩
  ⟨h.1, h.2.2.1, by decide⟩
/-- C6: a successful load depends on the source alone. For every prior store and every
openable source with an accepted line, the load succeeds and gives the result, and so
the map and the loaded flag, of the same load on a freshly constructed store; an
identifier that is not the identifier of an accepted line of this source (one that
occurs in the earlier data only) is not in the map. -/
theorem loadFromFile_independent_of_prior (app : AdvisingProgram) (filename : Str)
    (lines : List Str) (hacc : ∃ l ∈ lines, ∃ c, parseLine l = .course c) :
    (loadFromFile app filename (some lines)).ret = true ∧
      loadFromFile app filename (some lines) =
        loadFromFile AdvisingProgram.init filename (some lines) ∧
      (loadFromFile app filename (some lines)).app.courses_ =
        (loadFromFile AdvisingProgram.init filename (some lines)).app.courses_ ∧
      ∀ k, (¬ ∃ l ∈ lines, ∃ c, parseLine l = .course c ∧ c.number = k) →
        k ∉ (loadFromFile app filename (some lines)).app.courses_.keys ∧
          (loadFromFile app filename (some lines)).app.courses_.find k = none := by
  have h := (acceptedRecords_ne_nil_iff lines).2 hacc
  rw [loadFromFile_accepted app filename lines h,
    loadFromFile_accepted AdvisingProgram.init filename lines h]
  refine ⟨rfl, rfl, rfl, ?_⟩
  intro k hk
  have hnot : k ∉ (readLines lines).courses_.keys := fun hm => hk ((readLines_mem_keys lines k).1 hm)
  exact ⟨hnot, (Catalog.find_eq_none_iff _ k).2 hnot⟩

/-- A store that holds the four example courses is loaded from a source with the
single course `CSCI101`: the result is that of a load on a fresh store, and `CSCI300`
of the earlier data is gone. -/
theorem loadFromFile_independent_of_prior_witness :
    (loadFromFile AdvisingProgram.init "a.txt".toList (some exampleSource)).app.courses_.find
        "CSCI300".toList ≠ none ∧
      (loadFromFile (loadFromFile AdvisingProgram.init "a.txt".toList (some exampleSource)).app
          "b.txt".toList (some singleSource)).app =
        (loadFromFile AdvisingProgram.init "b.txt".toList (some singleSource)).app ∧
      (loadFromFile (loadFromFile AdvisingProgram.init "a.txt".toList (some exampleSource)).app
          "b.txt".toList (some singleSource)).app.courses_.find "CSCI300".toList = none :=
  have h := loadFromFile_independent_of_prior
    (loadFromFile AdvisingProgram.init "a.txt".toList (some exampleSource)).app
    "b.txt".toList singleSource
    ⟨"CSCI101, Introduction to Programming".toList, by decide, _, rfl⟩
  ⟨by decide, congrArg LoadResult.app h.2.1, (h.2.2.2 "CSCI300".toList
      (fun hex => absurd ((readLines_mem_keys singleSource "CSCI300".toList).2 hex)
        (by decide))).2⟩
/-! ## Queries on an empty map -/

theorem printCourseDetails_empty (app : AdvisingProgram) (userInput : Str)
    (h : app.courses_ = []) :
    printCourseDetails app userInput = [Out.loadFirst] ∨
      printCourseDetails app userInput = [Out.enterCourseNumber] ∨
      printCourseDetails app userInput = [Out.notFound (toUpper (trim userInput))] := by
  unfold printCourseDetails loadedCheck
  cases hl : app.loaded_
  · exact Or.inl (by simp)
  · by_cases hc : (toUpper (trim userInput)).isEmpty = true
    · exact Or.inr (Or.inl (by simp [hc]))
    · exact Or.inr (Or.inr (by simp [hc, h, Catalog.find]))

theorem printCourseList_empty (app : AdvisingProgram) (h : app.courses_ = []) :
    printCourseList app = some [Out.loadFirst] ∨
      printCourseList app = some [Out.scheduleHeader] := by
  unfold printCourseList loadedCheck
  cases hl : app.loaded_
  · exact Or.inl (by simp)
  · exact Or.inr (by simp [h, Catalog.keys, sortKeys, listLoop])

/-! ## Failed loads -/

/-- C7, as stated, fails for a source that cannot be opened: after a successful load
of the single course `CSCI101`, a load from a file that cannot be opened returns
false and leaves the map as it was, so `CSCI101` is still found by the detail query
and still listed. -/
theorem loadFromFile_unopenable_counterexample :
    (loadFromFile AdvisingProgram.init "a.txt".toList (some singleSource)).ret = true ∧
      (loadFromFile (loadFromFile AdvisingProgram.init "a.txt".toList (some singleSource)).app
        "missing.txt".toList none).ret = false ∧
      (loadFromFile (loadFromFile AdvisingProgram.init "a.txt".toList (some singleSource)).app
        "missing.txt".toList none).app.courses_ ≠ [] ∧
      printCourseDetails
        (loadFromFile (loadFromFile AdvisingProgram.init "a.txt".toList (some singleSource)).app
          "missing.txt".toList none).app "CSCI101".toList =
        [Out.courseLine "CSCI101".toList "Introduction to Programming".toList,
          Out.prereqsNone] ∧
      printCourseList
        (loadFromFile (loadFromFile AdvisingProgram.init "a.txt".toList (some singleSource)).app
          "missing.txt".toList none).app =
        some [Out.scheduleHeader,
          Out.courseLine "CSCI101".toList "Introduction to Programming".toList] := by
  decide

/-- C7 (amended): a load that fails on an openable source, which is a source without an
accepted line, leaves the map empty, whatever the store held before: no identifier is
found in it, the detail query returns no course for any input, and the listing has no
course. A load that fails because the source cannot be opened leaves the store as it
was. -/
theorem loadFromFile_failure_catalog (app : AdvisingProgram) (filename : Str)
    (lines : List Str) (hfail : (loadFromFile app filename (some lines)).ret = false) :
    (∀ l ∈ lines, ∀ c, parseLine l ≠ .course c) ∧
      (loadFromFile app filename (some lines)).app.courses_ = [] ∧
      (∀ k, (loadFromFile app filename (some lines)).app.courses_.find k = none) ∧
      (∀ userInput,
        printCourseDetails (loadFromFile app filename (some lines)).app userInput
            = [Out.loadFirst] ∨
          printCourseDetails (loadFromFile app filename (some lines)).app userInput
            = [Out.enterCourseNumber] ∨
          printCourseDetails (loadFromFile app filename (some lines)).app userInput
            = [Out.notFound (toUpper (trim userInput))]) ∧
      (printCourseList (loadFromFile app filename (some lines)).app = some [Out.loadFirst] ∨
        printCourseList (loadFromFile app filename (some lines)).app
          = some [Out.scheduleHeader]) ∧
      (loadFromFile app filename none).ret = false ∧
      (loadFromFile app filename none).app = app := by
  have hacc : acceptedRecords lines = [] := by
    by_contra hne
    rw [(loadFromFile_ret_iff app filename lines).2 hne] at hfail
    exact absurd hfail (by simp)
  have hc : (loadFromFile app filename (some lines)).app.courses_ = [] := by
    rw [loadFromFile_rejected app filename lines hacc]
  refine ⟨?_, hc, ?_, fun userInput => printCourseDetails_empty _ userInput hc,
    printCourseList_empty _ hc, rfl, rfl⟩
  · intro l hl c hp
    have : c ∈ acceptedRecords lines := (mem_acceptedRecords lines c).2 ⟨l, hl, hp⟩
    rw [hacc] at this
    simp at this
  · intro k; rw [hc]; rfl

/-- A store that holds the four example courses, then a load from a source of blank
lines: the map is empty afterwards and `CSCI300` is no longer found. -/
theorem loadFromFile_failure_catalog_witness :
    (loadFromFile AdvisingProgram.init "a.txt".toList (some exampleSource)).app.courses_.find
        "CSCI300".toList ≠ none ∧
      (loadFromFile (loadFromFile AdvisingProgram.init "a.txt".toList (some exampleSource)).app
        "blank.txt".toList (some blankSource)).app.courses_ = [] ∧
      (loadFromFile (loadFromFile AdvisingProgram.init "a.txt".toList (some exampleSource)).app
        "blank.txt".toList (some blankSource)).app.courses_.find "CSCI300".toList = none :=
  have h := loadFromFile_failure_catalog
    (loadFromFile AdvisingProgram.init "a.txt".toList (some exampleSource)).app
    "blank.txt".toList blankSource (by decide)
  ⟨by decide, h.2.1, h.2.2.1 "CSCI300".toList⟩

/-- C8: what the code does on the failing input. After a successful load of the single
course `CSCI101`, a load from a source of blank lines returns false and empties the
map, but `loaded_` stays true: the listing is the header alone and the detail query
answers that the course is not found, instead of the request to load data first. -/
theorem loadFromFile_blank_reload_stays_loaded :
    (loadFromFile AdvisingProgram.init "a.txt".toList (some singleSource)).ret = true ∧
      (loadFromFile (loadFromFile AdvisingProgram.init "a.txt".toList (some singleSource)).app
        "blank.txt".toList (some blankSource)).ret = false ∧
      (loadFromFile (loadFromFile AdvisingProgram.init "a.txt".toList (some singleSource)).app
        "blank.txt".toList (some blankSource)).app = { courses_ := [], loaded_ := true } ∧
      printCourseList
        (loadFromFile (loadFromFile AdvisingProgram.init "a.txt".toList (some singleSource)).app
          "blank.txt".toList (some blankSource)).app = some [Out.scheduleHeader] ∧
      printCourseDetails
        (loadFromFile (loadFromFile AdvisingProgram.init "a.txt".toList (some singleSource)).app
          "blank.txt".toList (some blankSource)).app "CSCI101".toList
        = [Out.notFound "CSCI101".toList] := by
  decide
/-! ## Counts reported by a load -/

theorem acceptedRecords_length (lines : List Str) :
    (acceptedRecords lines).length =
      lines.countP fun l =>
        match parseLine l with
        | .course _ => true
        | _ => false := by
  induction lines with
  | nil => rfl
  | cons l lines ih =>
    rw [acceptedRecords_cons, List.countP_cons, ← ih]
    cases parseLine l <;> simp

theorem readLines_length (lines : List Str) :
    (readLines lines).courses_.length =
      ((acceptedRecords lines).map Course.number).dedup.length := by
  have hperm : List.Perm (readLines lines).courses_.keys
      ((acceptedRecords lines).map Course.number).dedup := by
    rw [List.perm_ext_iff_of_nodup (readLines_keys_nodup lines) (List.nodup_dedup _)]
    intro k
    rw [readLines_mem_keys, List.mem_dedup, List.mem_map]
    constructor
    · rintro ⟨l, hl, c, hp, hk⟩
      exact ⟨c, (mem_acceptedRecords lines c).2 ⟨l, hl, hp⟩, hk⟩
    · rintro ⟨c, hc, hk⟩
      obtain ⟨l, hl, hp⟩ := (mem_acceptedRecords lines c).1 hc
      exact ⟨l, hl, c, hp, hk⟩
  rw [← hperm.length_eq]
  simp [Catalog.keys]

/-- C9: a load succeeds exactly when the source can be opened and one of its lines is
accepted. On success the store is loaded, and the count in the message is the number
of entries of the map, which is the number of distinct identifiers of the accepted
lines: at least 1 and at most the number of accepted lines. -/
theorem loadFromFile_success (app : AdvisingProgram) (filename : Str)
    (fin : Option (List Str)) :
    ((loadFromFile app filename fin).ret = true ↔
        ∃ lines, fin = some lines ∧ ∃ l ∈ lines, ∃ c, parseLine l = .course c) ∧
      ∀ lines, fin = some lines → (loadFromFile app filename fin).ret = true →
        (loadFromFile app filename fin).app.loaded_ = true ∧
          (∃ missing, (loadFromFile app filename fin).cout =
            [Out.loaded (loadFromFile app filename fin).app.courses_.length missing]) ∧
          (loadFromFile app filename fin).app.courses_.length =
            ((acceptedRecords lines).map Course.number).dedup.length ∧
          1 ≤ (loadFromFile app filename fin).app.courses_.length ∧
          (loadFromFile app filename fin).app.courses_.length ≤ (acceptedRecords lines).length ∧
          (acceptedRecords lines).length =
            lines.countP fun l =>
              match parseLine l with
              | .course _ => true
              | _ => false := by
  constructor
  · cases fin with
    | none => simp [loadFromFile]
    | some lines =>
      rw [loadFromFile_ret_iff, acceptedRecords_ne_nil_iff]
      simp
  · intro lines hfin hret
    subst hfin
    have hacc := (loadFromFile_ret_iff app filename lines).1 hret
    rw [loadFromFile_accepted app filename lines hacc]
    have hlen := readLines_length lines
    refine ⟨rfl, ⟨_, rfl⟩, hlen, ?_, ?_, acceptedRecords_length lines⟩
    · have hne : (readLines lines).courses_ ≠ [] :=
        fun e => hacc ((readLines_courses_eq_nil_iff _).1 e)
      exact Nat.succ_le_of_lt (List.length_pos.2 hne)
    · show (readLines lines).courses_.length ≤ _
      rw [hlen]
      calc ((acceptedRecords lines).map Course.number).dedup.length
          ≤ ((acceptedRecords lines).map Course.number).length :=
            (List.dedup_sublist _).length_le
        _ = (acceptedRecords lines).length := List.length_map _ _

theorem validateCourse_fst (m : Catalog) (course : Course) (ps : List Str)
    (acc : Nat × List Err) :
    (validateCourse m course ps acc).1 = acc.1 + ps.countP fun p => (m.find p).isNone := by
  induction ps generalizing acc with
  | nil => simp [validateCourse]
  | cons p ps ih =>
    unfold validateCourse
    by_cases h : (m.find p).isNone = true
    · rw [if_pos h, ih, List.countP_cons]
      simp only [h, if_true]
      omega
    · rw [if_neg h, ih, List.countP_cons]
      simp [h]

theorem validateLoop_fst (m kvs : Catalog) (acc : Nat × List Err) :
    (validateLoop m kvs acc).1 =
      acc.1 + (kvs.map fun kv => kv.2.prereqs.countP fun p => (m.find p).isNone).sum := by
  induction kvs generalizing acc with
  | nil => simp [validateLoop]
  | cons kv kvs ih =>
    unfold validateLoop
    rw [ih, validateCourse_fst, List.map_cons, List.sum_cons]
    omega

/-- The second pass counts, over the entries of the map, the prerequisite positions
whose identifier is not a key of the map. -/
theorem validate_fst (m : Catalog) :
    (validate m).1 = (m.map fun kv => kv.2.prereqs.countP fun p => (m.find p).isNone).sum := by
  unfold validate
  rw [validateLoop_fst]
  simp

/-- C10: on a successful load the dangling count in the message is the number of pairs
of an entry of the final map and a position of its prerequisite list whose identifier
is not a key of the final map, counted with multiplicity. An identifier is a key of
the final map exactly when it is the identifier of an accepted line anywhere in the
source, so references to later lines and to the course itself are not counted; every
entry is the record of the last accepted line with its identifier, so the
prerequisites of replaced records are not counted. -/
theorem loadFromFile_missingCount (app : AdvisingProgram) (filename : Str) (lines : List Str)
    (hret : (loadFromFile app filename (some lines)).ret = true) :
    (loadFromFile app filename (some lines)).cout =
        [Out.loaded (loadFromFile app filename (some lines)).app.courses_.length
          ((loadFromFile app filename (some lines)).app.courses_.map fun kv =>
            kv.2.prereqs.countP fun p =>
              ((loadFromFile app filename (some lines)).app.courses_.find p).isNone).sum] ∧
      (∀ p, (loadFromFile app filename (some lines)).app.courses_.find p = none ↔
        ¬ ∃ l ∈ lines, ∃ c, parseLine l = .course c ∧ c.number = p) ∧
      ∀ kv ∈ (loadFromFile app filename (some lines)).app.courses_,
        ∃ pre l post, lines = pre ++ l :: post ∧ parseLine l = .course kv.2 ∧
          kv.2.number = kv.1 ∧
          ∀ l2 ∈ post, ∀ c2, parseLine l2 = .course c2 → c2.number ≠ kv.1 := by
  have hacc := (loadFromFile_ret_iff app filename lines).1 hret
  rw [loadFromFile_accepted app filename lines hacc]
  refine ⟨?_, ?_, ?_⟩
  · simp only [validate_fst]
  · intro p
    show (readLines lines).courses_.find p = none ↔ _
    rw [Catalog.find_eq_none_iff, readLines_mem_keys]
  · intro kv hkv
    have hkv' : kv ∈ (readLines lines).courses_ := hkv
    have hkey : kv.1 ∈ (readLines lines).courses_.keys := List.mem_map_of_mem Prod.fst hkv'
    obtain ⟨pre, l, post, he, ⟨c, hp, hn⟩, hpost⟩ :=
      exists_last_of_exists (fun l => ∃ c, parseLine l = .course c ∧ c.number = kv.1) lines
        ((readLines_mem_keys lines kv.1).1 hkey)
    have hpost2 : ∀ l2 ∈ post, ∀ c2, parseLine l2 = .course c2 → c2.number ≠ kv.1 :=
      fun l2 hl2 c2 hp2 hn2 => hpost l2 hl2 ⟨c2, hp2, hn2⟩
    have hfind : (readLines lines).courses_.find kv.1 = some c := by
      rw [he, ← hn]
      exact readLines_find_last pre post l c hp (by rw [hn]; exact hpost2)
    have hfind2 : (readLines lines).courses_.find kv.1 = some kv.2 :=
      Catalog.find_of_mem _ (readLines_keys_nodup lines) kv.1 kv.2 hkv'
    have hc : c = kv.2 := by
      rw [hfind] at hfind2; exact Option.some.inj hfind2
    subst hc
    exact ⟨pre, l, post, he, hp, hn, hpost2⟩

/-- The example source of the specification reports 4 records and 1 dangling
reference. In the second source `MATH999` is missing and listed twice by the stored
`CSCI300`, which counts 2; the reference of `CSCI100` to the later `CSCI300`, the
reference of `CSCI300` to itself and the reference to `PHYS1` of the replaced first
`CSCI300` line count nothing. -/
theorem loadFromFile_missingCount_witness :
    (loadFromFile AdvisingProgram.init "courses.txt".toList (some exampleSource)).cout
        = [Out.loaded 4 1] ∧
      (loadFromFile AdvisingProgram.init "courses.txt".toList
        (some ["CSCI300, Old, PHYS1".toList, "CSCI100, Intro, CSCI300".toList,
          "CSCI300, Algorithms, MATH999, CSCI300, MATH999".toList])).cout
        = [Out.loaded 2 2] :=
  ⟨(loadFromFile_missingCount AdvisingProgram.init "courses.txt".toList exampleSource
      (by decide)).1.trans (by decide),
    (loadFromFile_missingCount AdvisingProgram.init "courses.txt".toList
      ["CSCI300, Old, PHYS1".toList, "CSCI100, Intro, CSCI300".toList,
        "CSCI300, Algorithms, MATH999, CSCI300, MATH999".toList]
      (by decide)).1.trans (by decide)⟩

/-! ## Normalization is idempotent -/

theorem toupper_not_lower (ch : Char) :
    ¬ (97 ≤ (toupper ch).toNat ∧ (toupper ch).toNat ≤ 122) := by
  have hs := toupper_spec ch
  have ha : 'a'.toNat = 97 := rfl
  have hz : 'z'.toNat = 122 := rfl
  have hA : 'A'.toNat = 65 := rfl
  have hZ : 'Z'.toNat = 90 := rfl
  rw [ha, hz, hA, hZ] at hs
  by_cases h : 97 ≤ ch.toNat ∧ ch.toNat ≤ 122
  · obtain ⟨_, h1, h2⟩ := hs.1 h
    generalize (toupper ch).toNat = n at h1 h2
    omega
  · rw [hs.2 h]; exact h

theorem toupper_toupper (ch : Char) : toupper (toupper ch) = toupper ch := by
  have h := toupper_not_lower ch
  have hs := (toupper_spec (toupper ch)).2
  exact hs h

theorem toUpper_toUpper (s : Str) : toUpper (toUpper s) = toUpper s := by
  simp [toUpper, toupper_toupper]

theorem isspace_eq_true_iff (ch : Char) :
    isspace ch = true ↔
      ch.toNat = 32 ∨ ch.toNat = 9 ∨ ch.toNat = 10 ∨ ch.toNat = 11 ∨ ch.toNat = 12 ∨
        ch.toNat = 13 := by
  simp only [isspace, Bool.or_eq_true, beq_iff_eq, or_assoc]

theorem isspace_toupper (ch : Char) : isspace (toupper ch) = isspace ch := by
  have hs := toupper_spec ch
  have ha : 'a'.toNat = 97 := rfl
  have hz : 'z'.toNat = 122 := rfl
  have hA : 'A'.toNat = 65 := rfl
  have hZ : 'Z'.toNat = 90 := rfl
  rw [ha, hz, hA, hZ] at hs
  by_cases h : 97 ≤ ch.toNat ∧ ch.toNat ≤ 122
  · obtain ⟨_, h1, h2⟩ := hs.1 h
    have e1 : isspace (toupper ch) = false := by
      rw [← Bool.not_eq_true, isspace_eq_true_iff]
      generalize (toupper ch).toNat = n at h1 h2
      omega
    have e2 : isspace ch = false := by
      rw [← Bool.not_eq_true, isspace_eq_true_iff]
      obtain ⟨h3, h4⟩ := h
      generalize ch.toNat = n at h3 h4
      omega
    rw [e1, e2]
  · rw [hs.2 h]

theorem rdropWhile_map (p : Char → Bool) (f : Char → Char) (l : Str) :
    (l.map f).rdropWhile p = (l.rdropWhile (p ∘ f)).map f := by
  simp only [List.rdropWhile, ← List.map_reverse, List.dropWhile_map]

theorem trim_toUpper (s : Str) : trim (toUpper s) = toUpper (trim s) := by
  have hcomp : isspace ∘ toupper = isspace := funext isspace_toupper
  simp only [trim_eq, toUpper, List.dropWhile_map, rdropWhile_map, hcomp]

/-- A string that neither starts nor ends with whitespace is left alone by `trim`. -/
theorem trim_eq_self (t : Str)
    (h : ∀ hne : t ≠ [], isspace (t.head hne) = false ∧ isspace (t.getLast hne) = false) :
    trim t = t := by
  rw [trim_eq]
  cases t with
  | nil => rfl
  | cons c cs =>
    obtain ⟨h1, h2⟩ := h (by simp)
    have hd : (c :: cs).dropWhile isspace = c :: cs := by
      simp only [List.head_cons] at h1
      simp [List.dropWhile, h1]
    rw [hd, List.rdropWhile_eq_self_iff]
    intro hl
    simp [h2]

theorem trim_trim (s : Str) : trim (trim s) = trim s := by
  obtain ⟨_, _, _, _, _, h⟩ := trim_spec s
  exact trim_eq_self _ h

/-- The lookup normalization is idempotent. -/
theorem toUpper_trim_idem (s : Str) : toUpper (trim (toUpper (trim s))) = toUpper (trim s) := by
  rw [trim_toUpper, trim_trim, toUpper_toUpper]

/-! ## The order of `std::string` and `std::sort` -/

theorem strLt_nil_right (a : Str) : strLt a [] = false := by
  cases a <;> rfl

theorem strLt_cons_cons (a b : Char) (as bs : Str) :
    strLt (a :: as) (b :: bs) =
      if a.toNat < b.toNat then true else if b.toNat < a.toNat then false else strLt as bs :=
  rfl

theorem strLt_irrefl (a : Str) : strLt a a = false := by
  induction a with
  | nil => rfl
  | cons c cs ih => rw [strLt_cons_cons]; simp [ih]

theorem strLt_asymm (a b : Str) (h : strLt a b = true) : strLt b a = false := by
  induction a generalizing b with
  | nil =>
    cases b with
    | nil => rfl
    | cons d ds => rfl
  | cons c cs ih =>
    cases b with
    | nil => simp [strLt] at h
    | cons d ds =>
      rw [strLt_cons_cons] at h ⊢
      by_cases h1 : c.toNat < d.toNat
      · have h2 : ¬ d.toNat < c.toNat := by omega
        simp [h1, h2]
      · by_cases h2 : d.toNat < c.toNat
        · simp [h1, h2] at h
        · simp only [h1, h2, if_false] at h ⊢
          exact ih ds h

theorem strLt_trans (a b c : Str) (h1 : strLt a b = true) (h2 : strLt b c = true) :
    strLt a c = true := by
  induction a generalizing b c with
  | nil =>
    cases c with
    | nil => rw [strLt_nil_right] at h2; exact absurd h2 (by simp)
    | cons e es => rfl
  | cons x xs ih =>
    cases b with
    | nil => simp [strLt] at h1
    | cons y ys =>
      cases c with
      | nil => simp [strLt] at h2
      | cons z zs =>
        rw [strLt_cons_cons] at h1 h2 ⊢
        by_cases hxy : x.toNat < y.toNat
        · by_cases hyz : y.toNat < z.toNat
          · have : x.toNat < z.toNat := by omega
            simp [this]
          · by_cases hzy : z.toNat < y.toNat
            · simp [hyz, hzy] at h2
            · have : x.toNat < z.toNat := by omega
              simp [this]
        · by_cases hyx : y.toNat < x.toNat
          · simp [hxy, hyx] at h1
          · simp only [hxy, hyx, if_false] at h1
            by_cases hyz : y.toNat < z.toNat
            · have : x.toNat < z.toNat := by omega
              simp [this]
            · by_cases hzy : z.toNat < y.toNat
              · simp [hyz, hzy] at h2
              · simp only [hyz, hzy, if_false] at h2
                have e1 : ¬ x.toNat < z.toNat := by omega
                have e2 : ¬ z.toNat < x.toNat := by omega
                simp only [e1, e2, if_false]
                exact ih ys zs h1 h2

theorem strLt_connex (a b : Str) (h1 : strLt a b = false) (h2 : strLt b a = false) : a = b := by
  induction a generalizing b with
  | nil =>
    cases b with
    | nil => rfl
    | cons d ds => simp [strLt] at h1
  | cons c cs ih =>
    cases b with
    | nil => simp [strLt] at h2
    | cons d ds =>
      rw [strLt_cons_cons] at h1 h2
      by_cases hcd : c.toNat < d.toNat
      · simp [hcd] at h1
      · by_cases hdc : d.toNat < c.toNat
        · simp [hdc] at h2
        · simp only [hcd, hdc, if_false] at h1 h2
          have e : c = d := (char_toNat_eq_iff c d).1 (by omega)
          rw [e, ih ds h1 h2]

theorem strLe_total (a b : Str) : strLe a b ∨ strLe b a := by
  unfold strLe
  cases h : strLt b a
  · exact Or.inl rfl
  · exact Or.inr (strLt_asymm b a h)

theorem strLe_trans (a b c : Str) (h1 : strLe a b) (h2 : strLe b c) : strLe a c := by
  unfold strLe at *
  cases h : strLt c a
  · rfl
  · -- c < a: then either a < b, which gives c < b, or a = b
    cases hab : strLt a b
    · have e : a = b := strLt_connex a b hab h1
      subst e
      rw [h] at h2; exact absurd h2 (by simp)
    · have := strLt_trans c a b h hab
      rw [this] at h2; exact absurd h2 (by simp)

/-- The result of `std::sort` on keys without repetition: the same keys, strictly
increasing in the order of `std::string`. -/
theorem sortKeys_spec (keys : List Str) (hnd : keys.Nodup) :
    List.Perm (sortKeys keys) keys ∧ (sortKeys keys).Nodup ∧
      (sortKeys keys).Pairwise (fun a b => strLt a b = true) := by
  have hperm : List.Perm (sortKeys keys) keys := List.perm_insertionSort strLe keys
  have hnd2 : (sortKeys keys).Nodup := hperm.nodup_iff.2 hnd
  refine ⟨hperm, hnd2, ?_⟩
  have hs : (sortKeys keys).Pairwise strLe := @List.sorted_insertionSort Str strLe _ ⟨strLe_total⟩ ⟨strLe_trans⟩ keys
  have hboth := hs.and hnd2
  refine hboth.imp ?_
  intro a b hab
  obtain ⟨h1, h2⟩ := hab
  cases h : strLt a b
  · exact absurd (strLt_connex a b h h1) h2
  · rfl

/-- The comparison `strLt` is the lexicographic order of the character codes. -/
theorem strLt_iff_lex (a b : Str) :
    strLt a b = true ↔ List.Lex (fun x y : Char => x.toNat < y.toNat) a b := by
  induction a generalizing b with
  | nil =>
    cases b with
    | nil => simp [strLt]
    | cons d ds => simp [strLt, List.Lex.nil]
  | cons c cs ih =>
    cases b with
    | nil => simp [strLt]
    | cons d ds =>
      rw [strLt_cons_cons]
      constructor
      · intro h
        by_cases hcd : c.toNat < d.toNat
        · exact List.Lex.rel hcd
        · by_cases hdc : d.toNat < c.toNat
          · simp [hcd, hdc] at h
          · simp only [hcd, hdc, if_false] at h
            have e : c = d := (char_toNat_eq_iff c d).1 (by omega)
            subst e
            exact List.Lex.cons ((ih ds).1 h)
      · intro h
        cases h with
        | cons h2 =>
          have : ¬ c.toNat < c.toNat := by omega
          simp only [this, if_false]
          exact (ih ds).2 h2
        | rel h2 => simp [h2]

/-! ## The invariant of the store -/

theorem splitCSV_no_comma (s : Str) : ∀ t ∈ splitCSV s, ',' ∉ t := by
  induction s with
  | nil => simp [splitCSV_nil]
  | cons c cs ih =>
    cases cs with
    | nil =>
      by_cases hc : c = ','
      · subst hc; simp [splitCSV_comma, splitCSV_nil]
      · rw [splitCSV_single c hc]
        intro t ht
        simp only [List.mem_singleton] at ht
        subst ht
        simpa using Ne.symm hc
    | cons c2 cs2 =>
      by_cases hc : c = ','
      · subst hc
        rw [splitCSV_comma]
        intro t ht
        rcases List.mem_cons.1 ht with e | e
        · subst e; simp
        · exact ih t e
      · obtain ⟨t0, ts, h1, h2⟩ := splitCSV_cons_cons c c2 cs2 hc
        rw [h2]
        rw [h1] at ih
        intro t ht
        rcases List.mem_cons.1 ht with e | e
        · subst e
          have := ih t0 (List.mem_cons_self _ _)
          intro hm
          rcases List.mem_cons.1 hm with e2 | e2
          · exact hc e2.symm
          · exact this e2
        · exact ih t (List.mem_cons_of_mem _ e)

theorem trim_subset (s : Str) : ∀ ch ∈ trim s, ch ∈ s := by
  obtain ⟨l, r, h, _⟩ := trim_spec s
  intro ch hch
  rw [h]
  simp [hch]

theorem toupper_eq_comma (ch : Char) (h : toupper ch = ',') : ch = ',' := by
  have hs := toupper_spec ch
  have ha : 'a'.toNat = 97 := rfl
  have hz : 'z'.toNat = 122 := rfl
  have hA : 'A'.toNat = 65 := rfl
  have hZ : 'Z'.toNat = 90 := rfl
  rw [ha, hz, hA, hZ] at hs
  by_cases hl : 97 ≤ ch.toNat ∧ ch.toNat ≤ 122
  · obtain ⟨_, h1, h2⟩ := hs.1 hl
    rw [h] at h1 h2
    have : ','.toNat = 44 := rfl
    omega
  · rw [hs.2 hl] at h; exact h

/-- The identifier made from a field of `splitCSV`. -/
theorem normalized_field (f0 : Str) (hcomma : ',' ∉ f0) (hne : trim f0 ≠ []) :
    toUpper (trim f0) ≠ [] ∧ toUpper (trim (toUpper (trim f0))) = toUpper (trim f0) ∧
      ∀ ch ∈ toUpper (trim f0), ch ≠ ',' ∧ ¬ (97 ≤ ch.toNat ∧ ch.toNat ≤ 122) := by
  refine ⟨fun h => hne ((toUpper_eq_nil_iff _).1 h), toUpper_trim_idem f0, ?_⟩
  intro ch hch
  simp only [toUpper, List.mem_map] at hch
  obtain ⟨c0, hc0, he⟩ := hch
  subst he
  refine ⟨?_, toupper_not_lower c0⟩
  intro h
  have := toupper_eq_comma c0 h
  subst this
  exact hcomma (trim_subset f0 _ hc0)

theorem parseLine_course_normalized (line : Str) (c : Course) (h : parseLine line = .course c) :
    c.number ≠ [] ∧ c.title ≠ [] ∧ toUpper (trim c.number) = c.number ∧
      ∀ ch ∈ c.number, ch ≠ ',' ∧ ¬ (97 ≤ ch.toNat ∧ ch.toNat ≤ 122) := by
  obtain ⟨f0, f1, rest, hs, h0, h1, hc⟩ := parseLine_course_inv line c h
  have hcomma : ',' ∉ f0 := splitCSV_no_comma (trim line) f0 (by rw [hs]; simp)
  obtain ⟨n1, n2, n3⟩ := normalized_field f0 hcomma h0
  subst hc
  exact ⟨n1, h1, n2, n3⟩

theorem Catalog.inv_nil : Catalog.Inv [] := by
  refine ⟨by simp [Catalog.keys], ?_⟩
  intro kv hkv
  simp at hkv

theorem readLines_inv (lines : List Str) : (readLines lines).courses_.Inv := by
  refine ⟨readLines_keys_nodup lines, ?_⟩
  intro kv hkv
  rw [readLines_courses] at hkv
  rcases Catalog.mem_assignAll [] _ kv hkv with h | ⟨h1, h2⟩
  · simp at h
  · obtain ⟨l, _, hp⟩ := (mem_acceptedRecords lines kv.2).1 h1
    obtain ⟨n1, n2, n3, n4⟩ := parseLine_course_normalized l kv.2 hp
    rw [h2] at n1 n3 n4
    exact ⟨h2, n1, n2, n3, n4⟩

theorem loadFromFile_inv (app : AdvisingProgram) (filename : Str) (fin : Option (List Str))
    (h : app.courses_.Inv) : (loadFromFile app filename fin).app.courses_.Inv := by
  cases fin with
  | none => exact h
  | some lines =>
    by_cases hacc : acceptedRecords lines = []
    · rw [loadFromFile_rejected app filename lines hacc]; exact Catalog.inv_nil
    · rw [loadFromFile_accepted app filename lines hacc]; exact readLines_inv lines

theorem apply_inv (app : AdvisingProgram) (op : Op) (h : app.courses_.Inv) :
    (op.apply app).courses_.Inv := by
  cases op with
  | load filename fin => exact loadFromFile_inv app filename fin h
  | list => exact h
  | detail s => exact h

theorem foldl_apply_inv (ops : List Op) (app : AdvisingProgram) (h : app.courses_.Inv) :
    (ops.foldl Op.apply app).courses_.Inv := by
  induction ops generalizing app with
  | nil => exact h
  | cons op ops ih => exact ih _ (apply_inv app op h)

/-- Every store that the operations reach from a fresh store satisfies the invariant. -/
theorem run_inv (ops : List Op) : (run ops).courses_.Inv :=
  foldl_apply_inv ops _ Catalog.inv_nil

/-! ## The listing -/

theorem Catalog.find_number (m : Catalog) (hinv : m.Inv) (k : Str) (c : Course)
    (h : m.find k = some c) : c.number = k :=
  (hinv.2 (k, c) (Catalog.mem_of_find m k c h)).1

theorem Catalog.find_of_mem_keys (m : Catalog) (k : Str) (h : k ∈ m.keys) :
    ∃ c, m.find k = some c := by
  cases hf : m.find k with
  | none => exact absurd h ((Catalog.find_eq_none_iff m k).1 hf)
  | some c => exact ⟨c, rfl⟩

theorem Catalog.mem_keys_of_find (m : Catalog) (k : Str) (c : Course) (h : m.find k = some c) :
    k ∈ m.keys := by
  by_contra hn
  rw [(Catalog.find_eq_none_iff m k).2 hn] at h
  exact absurd h (by simp)

theorem listLoop_spec (m : Catalog) (hinv : m.Inv) (codes : List Str)
    (h : ∀ k ∈ codes, k ∈ m.keys) :
    ∃ recs : List Course,
      listLoop m codes = some (recs.map fun c => Out.courseLine c.number c.title) ∧
        recs.map Course.number = codes ∧ ∀ c ∈ recs, m.find c.number = some c := by
  induction codes with
  | nil => exact ⟨[], rfl, rfl, by simp⟩
  | cons k codes ih =>
    obtain ⟨recs, h1, h2, h3⟩ := ih (fun k2 hk2 => h k2 (List.mem_cons_of_mem _ hk2))
    obtain ⟨c, hc⟩ := Catalog.find_of_mem_keys m k (h k (List.mem_cons_self _ _))
    have hn : c.number = k := Catalog.find_number m hinv k c hc
    refine ⟨c :: recs, ?_, ?_, ?_⟩
    · simp only [listLoop, hc, h1, List.map_cons]
    · simp only [List.map_cons, hn, h2]
    · intro c2 hc2
      rcases List.mem_cons.1 hc2 with e | e
      · subst e; rw [hn]; exact hc
      · exact h3 c2 e

/-- C11: on a loaded store reached by the operations, `printCourseList` writes the
header and then one line per record: the identifiers of the lines are strictly
increasing in the lexicographic order of the character codes, they are the keys of
the map, each exactly once, and each line shows the identifier and the title of the
record stored under that identifier. -/
theorem printCourseList_listing (ops : List Op) (hl : (run ops).loaded_ = true) :
    ∃ recs : List Course,
      printCourseList (run ops) =
          some (Out.scheduleHeader :: recs.map fun c => Out.courseLine c.number c.title) ∧
        (recs.map Course.number).Pairwise (fun a b => strLt a b = true) ∧
        (recs.map Course.number).Nodup ∧
        List.Perm (recs.map Course.number) (run ops).courses_.keys ∧
        (∀ k, k ∈ recs.map Course.number ↔ k ∈ (run ops).courses_.keys) ∧
        (∀ c ∈ recs, (run ops).courses_.find c.number = some c) ∧
        ∀ a b : Str, strLt a b = true ↔ List.Lex (fun x y : Char => x.toNat < y.toNat) a b := by
  have hinv := run_inv ops
  obtain ⟨hperm, hnd, hsorted⟩ := sortKeys_spec (run ops).courses_.keys hinv.1
  obtain ⟨recs, h1, h2, h3⟩ := listLoop_spec (run ops).courses_ hinv
    (sortKeys (run ops).courses_.keys) (fun k hk => hperm.subset hk)
  refine ⟨recs, ?_, ?_, ?_, ?_, ?_, h3, strLt_iff_lex⟩
  · simp only [printCourseList, loadedCheck, hl, h1]
    rfl
  · rw [h2]; exact hsorted
  · rw [h2]; exact hnd
  · rw [h2]; exact hperm
  · intro k; rw [h2]; exact hperm.mem_iff

/-- The listing of the example source of the specification. -/
theorem printCourseList_listing_witness :
    printCourseList (run [Op.load "courses.txt".toList (some exampleSource)]) =
        some [Out.scheduleHeader,
          Out.courseLine "CSCI101".toList "Introduction to Programming".toList,
          Out.courseLine "CSCI200".toList "Data Structures".toList,
          Out.courseLine "CSCI300".toList "Algorithms".toList,
          Out.courseLine "MATH201".toList "Discrete Math".toList] ∧
      ∃ recs : List Course,
        printCourseList (run [Op.load "courses.txt".toList (some exampleSource)]) =
          some (Out.scheduleHeader :: recs.map fun c => Out.courseLine c.number c.title) ∧
        (recs.map Course.number).Pairwise (fun a b => strLt a b = true) :=
  ⟨by decide,
    match printCourseList_listing [Op.load "courses.txt".toList (some exampleSource)]
      (by decide) with
    | ⟨recs, h1, h2, _⟩ => ⟨recs, h1, h2⟩⟩

/-! ## The detail view -/

theorem prereqItem_eq (m : Catalog) (hinv : m.Inv) (p : Str) : prereqItem m p = p := by
  unfold prereqItem
  cases h : m.find p with
  | none => rfl
  | some pc => exact Catalog.find_number m hinv p pc h

/-- C12: on a loaded store reached by the operations, for an input whose normalized
form is the key of the record `c`, the detail view shows the identifier and title of
`c`; when `c` has prerequisites, the identifier line is the stored prerequisite list
of `c` as it is (same length, order and repetitions, dangling ones included), and the
title line has, position by position, the title of the record stored for the
prerequisite or the marker `(missing: <identifier>)`; when `c` has none, the view
says so. -/
theorem printCourseDetails_view (ops : List Op) (userInput : Str) (c : Course)
    (hl : (run ops).loaded_ = true)
    (hfind : (run ops).courses_.find (toUpper (trim userInput)) = some c) :
    (c.prereqs ≠ [] →
        printCourseDetails (run ops) userInput =
          [Out.courseLine c.number c.title, Out.prereqs c.prereqs,
            Out.prereqTitles (c.prereqs.map fun p =>
              match (run ops).courses_.find p with
              | some pc => pc.title
              | none => "(missing: ".toList ++ p ++ ")".toList)]) ∧
      (c.prereqs = [] →
        printCourseDetails (run ops) userInput =
          [Out.courseLine c.number c.title, Out.prereqsNone]) := by
  have hinv := run_inv ops
  have hkey : toUpper (trim userInput) ≠ [] :=
    (hinv.2 _ (Catalog.mem_of_find _ _ _ hfind)).2.1
  have hitems : c.prereqs.map (prereqItem (run ops).courses_) = c.prereqs := by
    conv => rhs; rw [← List.map_id c.prereqs]
    exact List.map_congr_left (fun p _ => prereqItem_eq _ hinv p)
  constructor
  · intro hne
    simp only [printCourseDetails, loadedCheck, hl, List.isEmpty_eq_true, hkey, hfind, hne,
      hitems]
    rfl
  · intro he
    simp only [printCourseDetails, loadedCheck, hl, List.isEmpty_eq_true, hkey, hfind, he]
    rfl

/-- The detail view of `CSCI300` in the example source of the specification, asked for
in lower case with blanks around it. -/
theorem printCourseDetails_view_witness :
    printCourseDetails (run [Op.load "courses.txt".toList (some exampleSource)])
        "  csci300 ".toList =
      [Out.courseLine "CSCI300".toList "Algorithms".toList,
        Out.prereqs ["CSCI200".toList, "MATH999".toList],
        Out.prereqTitles ["Data Structures".toList, "(missing: MATH999)".toList]] :=
  ((printCourseDetails_view [Op.load "courses.txt".toList (some exampleSource)]
      "  csci300 ".toList
      { number := "CSCI300".toList, title := "Algorithms".toList,
        prereqs := ["CSCI200".toList, "MATH999".toList] }
      (by decide) (by decide)).1 (by decide)).trans (by decide)
/-- C13: the detail query depends on its input through the normalized form alone. For
every store and input, `printCourseDetails` gives the same result on the input and on
its trimmed and uppercased form, so two inputs with the same normalized form give the
same result. -/
theorem printCourseDetails_normalized (app : AdvisingProgram) (s : Str) :
    printCourseDetails app s = printCourseDetails app (toUpper (trim s)) ∧
      ∀ s2 : Str, toUpper (trim s2) = toUpper (trim s) →
        printCourseDetails app s2 = printCourseDetails app s := by
  constructor
  · simp only [printCourseDetails, toUpper_trim_idem]
  · intro s2 h
    simp only [printCourseDetails, h]

/-- C14: on a loaded store `printCourseDetails` answers in exactly one of three ways.
It asks for a course number exactly when the input is empty after trimming; it
answers that the course is not found exactly when the input is not empty after
trimming and its normalized form is not a key of the map, and the answer then names
that normalized form; otherwise the normalized form is a key and the answer is the
detail view of the record stored under it. The two failure answers are a single
message without course data. -/
theorem printCourseDetails_cases (app : AdvisingProgram) (s : Str)
    (hl : app.loaded_ = true) :
    (printCourseDetails app s = [Out.enterCourseNumber] ↔ trim s = []) ∧
      ((∃ code, printCourseDetails app s = [Out.notFound code]) ↔
        trim s ≠ [] ∧ toUpper (trim s) ∉ app.courses_.keys) ∧
      (trim s ≠ [] → toUpper (trim s) ∉ app.courses_.keys →
        printCourseDetails app s = [Out.notFound (toUpper (trim s))]) ∧
      (trim s ≠ [] → toUpper (trim s) ∈ app.courses_.keys →
        ∃ c, app.courses_.find (toUpper (trim s)) = some c ∧
          printCourseDetails app s =
            Out.courseLine c.number c.title ::
              (if c.prereqs.isEmpty then [Out.prereqsNone]
               else
                 [Out.prereqs (c.prereqs.map (prereqItem app.courses_)),
                  Out.prereqTitles (c.prereqs.map (prereqTitleItem app.courses_))])) := by
  by_cases he : trim s = []
  · have hu : toUpper (trim s) = [] := (toUpper_eq_nil_iff _).2 he
    have hout : printCourseDetails app s = [Out.enterCourseNumber] := by
      simp [printCourseDetails, loadedCheck, hl, hu]
    refine ⟨⟨fun _ => he, fun _ => hout⟩, ⟨?_, fun h => absurd he h.1⟩,
      fun h => absurd he h, fun h => absurd he h⟩
    rintro ⟨code, hc⟩
    rw [hout] at hc
    exact absurd hc (by simp)
  · have hu : toUpper (trim s) ≠ [] := fun h => he ((toUpper_eq_nil_iff _).1 h)
    by_cases hk : toUpper (trim s) ∈ app.courses_.keys
    · obtain ⟨c, hc⟩ := Catalog.find_of_mem_keys _ _ hk
      have hout : printCourseDetails app s =
          Out.courseLine c.number c.title ::
            (if c.prereqs.isEmpty then [Out.prereqsNone]
             else
               [Out.prereqs (c.prereqs.map (prereqItem app.courses_)),
                Out.prereqTitles (c.prereqs.map (prereqTitleItem app.courses_))]) := by
        simp only [printCourseDetails, loadedCheck, hl, List.isEmpty_eq_true, hu, hc]
        rfl
      refine ⟨⟨?_, fun h => absurd h he⟩, ⟨?_, fun h => absurd hk h.2⟩,
        fun _ h => absurd hk h, fun _ _ => ⟨c, hc, hout⟩⟩
      · intro h
        rw [hout] at h
        split at h <;> exact absurd h (by simp)
      · rintro ⟨code, h⟩
        rw [hout] at h
        split at h <;> exact absurd h (by simp)
    · have hnone : app.courses_.find (toUpper (trim s)) = none :=
        (Catalog.find_eq_none_iff _ _).2 hk
      have hout : printCourseDetails app s = [Out.notFound (toUpper (trim s))] := by
        simp only [printCourseDetails, loadedCheck, hl, List.isEmpty_eq_true, hu, hnone]
        rfl
      refine ⟨⟨?_, fun h => absurd h he⟩, ⟨fun _ => ⟨he, hk⟩, fun _ => ⟨_, hout⟩⟩,
        fun _ _ => hout, fun _ h => absurd h hk⟩
      intro h
      rw [hout] at h
      exact absurd h (by simp)

/-- The three answers on the example source of the specification: a blank input, an
unknown identifier, and `MATH201`. -/
theorem printCourseDetails_cases_witness :
    printCourseDetails (run [Op.load "courses.txt".toList (some exampleSource)]) " \t".toList
        = [Out.enterCourseNumber] ∧
      printCourseDetails (run [Op.load "courses.txt".toList (some exampleSource)])
        " math999".toList = [Out.notFound "MATH999".toList] ∧
      ∃ c, (run [Op.load "courses.txt".toList (some exampleSource)]).courses_.find
          (toUpper (trim "math201".toList)) = some c ∧
        printCourseDetails (run [Op.load "courses.txt".toList (some exampleSource)])
          "math201".toList =
          Out.courseLine c.number c.title ::
            (if c.prereqs.isEmpty then [Out.prereqsNone]
             else
               [Out.prereqs (c.prereqs.map
                  (prereqItem (run [Op.load "courses.txt".toList (some exampleSource)]).courses_)),
                Out.prereqTitles (c.prereqs.map
                  (prereqTitleItem
                    (run [Op.load "courses.txt".toList (some exampleSource)]).courses_))]) :=
  ⟨(printCourseDetails_cases (run [Op.load "courses.txt".toList (some exampleSource)])
      " \t".toList (by decide)).1.2 (by decide),
    ((printCourseDetails_cases (run [Op.load "courses.txt".toList (some exampleSource)])
      " math999".toList (by decide)).2.2.1 (by decide) (by decide)).trans (by decide),
    (printCourseDetails_cases (run [Op.load "courses.txt".toList (some exampleSource)])
      "math201".toList (by decide)).2.2.2 (by decide) (by decide)⟩

/-! ## Sequences of operations -/

theorem loadFromFile_loaded (app : AdvisingProgram) (filename : Str) (fin : Option (List Str)) :
    (loadFromFile app filename fin).app.loaded_ =
      (app.loaded_ || (loadFromFile app filename fin).ret) := by
  cases fin with
  | none => simp [loadFromFile]
  | some lines =>
    by_cases hacc : acceptedRecords lines = []
    · rw [loadFromFile_rejected app filename lines hacc]; simp
    · rw [loadFromFile_accepted app filename lines hacc]; simp

theorem foldl_apply_not_loaded (ops : List Op) (app : AdvisingProgram)
    (h0 : app.loaded_ = false ∧ app.courses_ = []) (h : anyLoadSucceeded app ops = false) :
    (ops.foldl Op.apply app).loaded_ = false ∧ (ops.foldl Op.apply app).courses_ = [] := by
  induction ops generalizing app with
  | nil => exact h0
  | cons op ops ih =>
    simp only [anyLoadSucceeded, Bool.or_eq_false_iff] at h
    refine ih (op.apply app) ?_ h.2
    cases op with
    | load filename fin =>
      have hret : (loadFromFile app filename fin).ret = false := h.1
      constructor
      · show (loadFromFile app filename fin).app.loaded_ = false
        rw [loadFromFile_loaded, h0.1, hret]; rfl
      · show (loadFromFile app filename fin).app.courses_ = []
        cases fin with
        | none => exact h0.2
        | some lines =>
          have hacc : acceptedRecords lines = [] := by
            by_contra hne
            rw [(loadFromFile_ret_iff app filename lines).2 hne] at hret
            exact absurd hret (by simp)
          rw [loadFromFile_rejected app filename lines hacc]
    | list => exact h0
    | detail s => exact h0

/-- C15: in a store reached from a fresh store by queries and loads of which none
returned true, the store is not loaded and holds no record, and both queries answer
with the request to load data first and nothing else, whatever the input. -/
theorem queries_before_successful_load (ops : List Op)
    (h : anyLoadSucceeded AdvisingProgram.init ops = false) :
    (run ops).loaded_ = false ∧ (run ops).courses_ = [] ∧
      printCourseList (run ops) = some [Out.loadFirst] ∧
      ∀ userInput, printCourseDetails (run ops) userInput = [Out.loadFirst] := by
  obtain ⟨h1, h2⟩ := foldl_apply_not_loaded ops AdvisingProgram.init ⟨rfl, rfl⟩ h
  have h1' : (run ops).loaded_ = false := h1
  refine ⟨h1', h2, ?_, ?_⟩
  · simp [printCourseList, loadedCheck, h1']
  · intro userInput
    simp [printCourseDetails, loadedCheck, h1']

/-- Queries on a fresh store, after a load from a file that cannot be opened and after
a load from a file of blank lines. -/
theorem queries_before_successful_load_witness :
    printCourseList (run [Op.list, Op.load "missing.txt".toList none, Op.detail "CSCI101".toList,
        Op.load "blank.txt".toList (some blankSource)]) = some [Out.loadFirst] ∧
      printCourseDetails (run [Op.list, Op.load "missing.txt".toList none,
        Op.detail "CSCI101".toList, Op.load "blank.txt".toList (some blankSource)])
        "CSCI101".toList = [Out.loadFirst] :=
  have h := queries_before_successful_load
    [Op.list, Op.load "missing.txt".toList none, Op.detail "CSCI101".toList,
      Op.load "blank.txt".toList (some blankSource)] (by decide)
  ⟨h.2.2.1, h.2.2.2 "CSCI101".toList⟩

/-! ## Skipped lines -/

theorem acceptedRecords_filter (lines : List Str) :
    acceptedRecords
        (lines.filter fun l =>
          match parseLine l with
          | .course _ => true
          | _ => false) = acceptedRecords lines := by
  induction lines with
  | nil => rfl
  | cons l lines ih =>
    rw [List.filter_cons]
    cases hp : parseLine l with
    | blank => simp only [Bool.false_eq_true, if_false]; rw [ih, acceptedRecords_cons, hp]
    | fewerThanTwoFields =>
      simp only [Bool.false_eq_true, if_false]; rw [ih, acceptedRecords_cons, hp]
    | emptyNumberOrTitle =>
      simp only [Bool.false_eq_true, if_false]; rw [ih, acceptedRecords_cons, hp]
    | course c =>
      simp only [if_true]
      rw [acceptedRecords_cons, acceptedRecords_cons, hp, ih]

/-- C16: blank and rejected lines do not affect the outcome of a load. For every store
and source, the load of the source and the load of the source without its blank and
rejected lines return the same value, leave the same store (map and loaded flag) and
write the same message with the record count and the dangling count. -/
theorem loadFromFile_skips_rejected (app : AdvisingProgram) (filename : Str)
    (lines : List Str) :
    (loadFromFile app filename (some lines)).ret =
        (loadFromFile app filename
          (some (lines.filter fun l =>
            match parseLine l with
            | .course _ => true
            | _ => false))).ret ∧
      (loadFromFile app filename (some lines)).app =
        (loadFromFile app filename
          (some (lines.filter fun l =>
            match parseLine l with
            | .course _ => true
            | _ => false))).app ∧
      (loadFromFile app filename (some lines)).cout =
        (loadFromFile app filename
          (some (lines.filter fun l =>
            match parseLine l with
            | .course _ => true
            | _ => false))).cout := by
  have hf := acceptedRecords_filter lines
  by_cases hacc : acceptedRecords lines = []
  · rw [loadFromFile_rejected app filename lines hacc,
      loadFromFile_rejected app filename _ (hf.trans hacc)]
    exact ⟨rfl, rfl, rfl⟩
  · have hacc2 : acceptedRecords
        (lines.filter fun l =>
          match parseLine l with
          | .course _ => true
          | _ => false) ≠ [] := by rw [hf]; exact hacc
    rw [loadFromFile_accepted app filename lines hacc,
      loadFromFile_accepted app filename _ hacc2]
    simp only [readLines_courses, hf, and_self]

/-! ## Stored records and identifiers -/

/-- C17: in every store reached from a fresh store by loads, successful or not, and
queries, every record of the map has an identifier that is not empty and a title that
is not empty. -/
theorem stored_record_nonempty (ops : List Op) (kv : Str × Course)
    (hkv : kv ∈ (run ops).courses_) : kv.2.number ≠ [] ∧ kv.2.title ≠ [] := by
  obtain ⟨h1, h2, h3, _⟩ := (run_inv ops).2 kv hkv
  exact ⟨by rw [h1]; exact h2, h3⟩

/-- A record of the example source after a failed load, a successful load and a
query. -/
theorem stored_record_nonempty_witness :
    ("CSCI200".toList,
        ({ number := "CSCI200".toList, title := "Data Structures".toList,
           prereqs := ["CSCI101".toList] } : Course)) ∈
        (run [Op.load "missing.txt".toList none,
          Op.load "courses.txt".toList (some exampleSource), Op.list]).courses_ ∧
      "CSCI200".toList ≠ [] ∧ "Data Structures".toList ≠ [] :=
  ⟨by decide,
    stored_record_nonempty
      [Op.load "missing.txt".toList none, Op.load "courses.txt".toList (some exampleSource),
        Op.list]
      ("CSCI200".toList,
        { number := "CSCI200".toList, title := "Data Structures".toList,
          prereqs := ["CSCI101".toList] })
      (by decide)⟩

theorem normalized_ends (k : Str) (h : toUpper (trim k) = k) (hne : k ≠ []) :
    isspace (k.head hne) = false ∧ isspace (k.getLast hne) = false := by
  have ht : trim k ≠ [] := by
    intro e
    rw [e] at h
    exact hne h.symm
  obtain ⟨_, _, _, _, _, hs⟩ := trim_spec k
  obtain ⟨h1, h2⟩ := hs ht
  have key : ∀ (l : Str) (hl : l ≠ []), l = (trim k).map toupper →
      isspace (l.head hl) = false ∧ isspace (l.getLast hl) = false := by
    intro l hl e
    subst e
    simp only [List.head_map, List.getLast_map, isspace_toupper]
    exact ⟨h1, h2⟩
  exact key k hne h.symm

/-- C18, as stated, fails: the line `cs-101 b, Intro to C` is accepted and stored under
the identifier `CS-101 B`, which has a hyphen and a blank. -/
theorem stored_identifier_punctuation_counterexample :
    (run [Op.load "courses.txt".toList (some ["cs-101 b, Intro to C".toList])]).courses_.keys
        = ["CS-101 B".toList] ∧
      ¬ ∀ ch ∈ "CS-101 B".toList,
        ('A'.toNat ≤ ch.toNat ∧ ch.toNat ≤ 'Z'.toNat) ∨
          ('0'.toNat ≤ ch.toNat ∧ ch.toNat ≤ '9'.toNat) := by
  decide

/-- C18 (amended): every identifier stored in the map, in every store reached from a
fresh store, is normalized: it is the key of its record, it is not empty, it is a
fixed point of trimming and uppercasing, it holds no letter `a`..`z` and no comma, and
it neither starts nor ends with whitespace. -/
theorem stored_identifier_normalized (ops : List Op) (kv : Str × Course)
    (hkv : kv ∈ (run ops).courses_) :
    kv.2.number = kv.1 ∧ kv.1 ≠ [] ∧ toUpper (trim kv.1) = kv.1 ∧
      (∀ ch ∈ kv.1, ch ≠ ',' ∧ ¬ ('a'.toNat ≤ ch.toNat ∧ ch.toNat ≤ 'z'.toNat)) ∧
      ∀ hne : kv.1 ≠ [], isspace (kv.1.head hne) = false ∧ isspace (kv.1.getLast hne) = false := by
  obtain ⟨h1, h2, _, h4, h5⟩ := (run_inv ops).2 kv hkv
  exact ⟨h1, h2, h4, h5, fun hne => normalized_ends kv.1 h4 hne⟩

/-- The identifier `CS-101 B` of the line `cs-101 b, Intro to C`. -/
theorem stored_identifier_normalized_witness :
    ("CS-101 B".toList,
        ({ number := "CS-101 B".toList, title := "Intro to C".toList, prereqs := [] } : Course)) ∈
        (run [Op.load "courses.txt".toList
          (some ["cs-101 b, Intro to C".toList])]).courses_ ∧
      toUpper (trim "CS-101 B".toList) = "CS-101 B".toList ∧
      ∀ ch ∈ "CS-101 B".toList, ch ≠ ',' ∧ ¬ ('a'.toNat ≤ ch.toNat ∧ ch.toNat ≤ 'z'.toNat) :=
  have h := stored_identifier_normalized
    [Op.load "courses.txt".toList (some ["cs-101 b, Intro to C".toList])]
    ("CS-101 B".toList,
      { number := "CS-101 B".toList, title := "Intro to C".toList, prereqs := [] })
    (by decide)
  ⟨by decide, h.2.2.1, h.2.2.2.1⟩

/-! ## Listing and detail view together -/

/-- C19: on a loaded store reached by the operations, every line of the listing, with
identifier `number` and title `title`, is answered by the detail query for `number`:
the identifier is a key of the map and a fixed point of the lookup normalization, the
record stored under it has this identifier and title, and the detail view starts with
the same identifier and title. -/
theorem list_detail_agree (ops : List Op) (out : List Out) (number title : Str)
    (hl : (run ops).loaded_ = true) (hout : printCourseList (run ops) = some out)
    (hmem : Out.courseLine number title ∈ out) :
    toUpper (trim number) = number ∧
      ∃ c, (run ops).courses_.find number = some c ∧ c.number = number ∧ c.title = title ∧
        ∃ rest, printCourseDetails (run ops) number = Out.courseLine number title :: rest := by
  have hinv := run_inv ops
  obtain ⟨hperm, _, _⟩ := sortKeys_spec (run ops).courses_.keys hinv.1
  obtain ⟨recs, h1, _, h3⟩ := listLoop_spec (run ops).courses_ hinv
    (sortKeys (run ops).courses_.keys) (fun k hk => hperm.subset hk)
  have hout2 : printCourseList (run ops) =
      some (Out.scheduleHeader :: recs.map fun c => Out.courseLine c.number c.title) := by
    simp only [printCourseList, loadedCheck, hl, h1]
    rfl
  rw [hout2] at hout
  have he := Option.some.inj hout
  rw [← he] at hmem
  rcases List.mem_cons.1 hmem with e | e
  · exact absurd e (by simp)
  · obtain ⟨c, hc, hce⟩ := List.mem_map.1 e
    have hn : c.number = number := by injection hce
    have htl : c.title = title := by injection hce
    have hfind : (run ops).courses_.find number = some c := by rw [← hn]; exact h3 c hc
    obtain ⟨_, hne, _, hfix, _⟩ := hinv.2 _ (Catalog.mem_of_find _ _ _ hfind)
    refine ⟨hfix, c, hfind, hn, htl, ?_⟩
    have hne2 : toUpper (trim number) ≠ [] := by rw [hfix]; exact hne
    have hfind2 : (run ops).courses_.find (toUpper (trim number)) = some c := by
      rw [hfix]; exact hfind
    refine ⟨(if c.prereqs.isEmpty then [Out.prereqsNone]
      else
        [Out.prereqs (c.prereqs.map (prereqItem (run ops).courses_)),
         Out.prereqTitles (c.prereqs.map (prereqTitleItem (run ops).courses_))]), ?_⟩
    simp only [printCourseDetails, loadedCheck, hl, List.isEmpty_eq_true, hne2, hfind2, hn, htl]
    rfl

/-- The line of `CSCI300` in the listing of the example source of the specification. -/
theorem list_detail_agree_witness :
    Out.courseLine "CSCI300".toList "Algorithms".toList ∈
        [Out.scheduleHeader,
          Out.courseLine "CSCI101".toList "Introduction to Programming".toList,
          Out.courseLine "CSCI200".toList "Data Structures".toList,
          Out.courseLine "CSCI300".toList "Algorithms".toList,
          Out.courseLine "MATH201".toList "Discrete Math".toList] ∧
      ∃ c, (run [Op.load "courses.txt".toList (some exampleSource)]).courses_.find
          "CSCI300".toList = some c ∧ c.number = "CSCI300".toList ∧
        c.title = "Algorithms".toList ∧
        ∃ rest,
          printCourseDetails (run [Op.load "courses.txt".toList (some exampleSource)])
            "CSCI300".toList = Out.courseLine "CSCI300".toList "Algorithms".toList :: rest :=
  ⟨by decide,
    (list_detail_agree [Op.load "courses.txt".toList (some exampleSource)]
      [Out.scheduleHeader,
        Out.courseLine "CSCI101".toList "Introduction to Programming".toList,
        Out.courseLine "CSCI200".toList "Data Structures".toList,
        Out.courseLine "CSCI300".toList "Algorithms".toList,
        Out.courseLine "MATH201".toList "Discrete Math".toList]
      "CSCI300".toList "Algorithms".toList (by decide) (by decide) (by decide)).2⟩

/-! ## A source that cannot be opened -/

/-- C20: a load from a source that cannot be opened returns false, writes the error
message and nothing else, and leaves the store, map and loaded flag, as it was; the
listing and every detail view are those of the store before the call. -/
theorem loadFromFile_cannot_open_unchanged (app : AdvisingProgram) (filename : Str) :
    (loadFromFile app filename none).ret = false ∧
      (loadFromFile app filename none).app = app ∧
      (loadFromFile app filename none).app.courses_ = app.courses_ ∧
      (loadFromFile app filename none).app.loaded_ = app.loaded_ ∧
      (loadFromFile app filename none).cout = [] ∧
      (loadFromFile app filename none).cerr = [Err.couldNotOpen filename] ∧
      printCourseList (loadFromFile app filename none).app = printCourseList app ∧
      ∀ userInput,
        printCourseDetails (loadFromFile app filename none).app userInput =
          printCourseDetails app userInput :=
  ⟨rfl, rfl, rfl, rfl, rfl, rfl, rfl, fun _ => rfl⟩

end ProjectTwo
